import Mathlib

/-!
Verification development for the HyperWatch real-time monitoring pipeline.

Shallow embedding of the Python sources:
  * src/hyperwatch/notifications/dispatcher.py  (NotificationRateLimiter)
  * src/hyperwatch/core/event_deduplicator.py   (EventDeduplicator)
  * src/hyperwatch/core/hypercore_client.py     (HyperCoreClient)

Modeling conventions:
  * Wall-clock times (Python `time.time()`) are integers (`Int`); every claim
    under study concerns order/arithmetic comparisons of times, not real-valued
    precision.
  * Python dicts become association lists with unique keys; insertion order is
    preserved on overwrite (as CPython does) and `del` removes the key.
  * Python events (dicts) become structures holding exactly the fields the
    modeled code reads; `event.get(k, default)` reads become total fields with
    the source's default.
  * `md5(...).hexdigest()` is modeled as an arbitrary function parameter
    `h : String → String`: every theorem about signatures holds for every
    deterministic hash function, which is all the source relies on.
-/

set_option maxHeartbeats 2000000
set_option maxRecDepth 16384

namespace HW

/-! ### Association lists standing for Python dicts -/

/-- Python `d.get(k)`: value of the first entry with key `k`, if any. -/
def aget {κ β : Type} [DecidableEq κ] : List (κ × β) → κ → Option β
  | [], _ => none
  | p :: rest, k => if p.1 = k then some p.2 else aget rest k

/-- Python `d[k] = v`: overwrite in place, or append a fresh entry. -/
def aset {κ β : Type} [DecidableEq κ] : List (κ × β) → κ → β → List (κ × β)
  | [], k, v => [(k, v)]
  | p :: rest, k, v => if p.1 = k then (k, v) :: rest else p :: aset rest k v

/-- Python `del d[k]` (total: removing an absent key is a no-op, which is how
the source always guards its deletes). -/
def adel {κ β : Type} [DecidableEq κ] (m : List (κ × β)) (k : κ) : List (κ × β) :=
  m.filter (fun p => p.1 ≠ k)

/-! ### NotificationRateLimiter (dispatcher.py) -/

/-- The fields of an alert/event dict that `NotificationRateLimiter` reads.
All other dict entries are irrelevant to the limiter's state machine and are
carried opaquely in `rest` so that distinct alerts stay distinct. -/
structure NEvent where
  wallet : Option String := none
  user : Option String := none
  rest : Nat := 0
deriving DecidableEq, Repr

/-- dispatcher.py:12-17, the `CHANNEL_HANDLERS` keys. -/
def CHANNEL_HANDLERS : List String := ["webhook", "telegram", "discord", "email"]

/-- dispatcher.py:20-25. -/
def CHANNEL_COOLDOWNS : List (String × Int) :=
  [("webhook", 15), ("telegram", 45), ("discord", 45), ("email", 60)]

/-- Key of the limiter's dicts: `(channel, wallet_key)` (dispatcher.py:41-42). -/
abbrev GateKey := String × String

/-- dispatcher.py:34-39, `_get_wallet_key`.  Python's
`event.get("wallet") or event.get("user", "global")` falls through on a
missing key or an empty string (falsy). -/
def getWalletKey (e : NEvent) : String :=
  let w : String :=
    match e.wallet with
    | some s => if s = "" then (e.user.getD "global") else s
    | none => e.user.getD "global"
  if w.length > 8 then w.take 8 ++ "..." else w

/-- State of `NotificationRateLimiter` (dispatcher.py:29-32). -/
structure RateLimiter where
  cooldowns : List (String × Int)
  lastSent : List (GateKey × Int)
  pending : List (GateKey × List NEvent)
deriving Repr

/-- The module-level instance `NotificationRateLimiter(CHANNEL_COOLDOWNS)`
(dispatcher.py:197). -/
def initRL : RateLimiter := ⟨CHANNEL_COOLDOWNS, [], []⟩

/-- Cooldown lookup `self.cooldowns.get(channel, 30)` (dispatcher.py:49). -/
def cdOf (cooldowns : List (String × Int)) (channel : String) : Int :=
  (aget cooldowns channel).getD 30

/-- Last-send lookup `self.last_sent.get(key, 0)` (dispatcher.py:48). -/
def lastD (rl : RateLimiter) (key : GateKey) : Int :=
  (aget rl.lastSent key).getD 0

/-- Pending lookup `self.pending_events.get(key, [])` (dispatcher.py:70-73). -/
def pendD (rl : RateLimiter) (key : GateKey) : List NEvent :=
  (aget rl.pending key).getD []

/-- dispatcher.py:44-60, `can_send_notification`.  Note that a positive check
mutates: it overwrites the key's timestamp with `now` before returning. -/
def canSendNotification (rl : RateLimiter) (channel walletKey : String) (now : Int) :
    Bool × RateLimiter :=
  let key : GateKey := (channel, walletKey)
  let lastTime := (aget rl.lastSent key).getD 0
  let cooldown := (aget rl.cooldowns channel).getD 30
  let canSend := now - lastTime > cooldown
  if canSend then (true, { rl with lastSent := aset rl.lastSent key now })
  else (false, rl)

/-- dispatcher.py:62-68, `add_pending_event`. -/
def addPendingEvent (rl : RateLimiter) (channel walletKey : String) (e : NEvent) :
    RateLimiter :=
  let key : GateKey := (channel, walletKey)
  { rl with pending := aset rl.pending key ((aget rl.pending key).getD [] ++ [e]) }

/-- dispatcher.py:75-81, `clear_pending_events`. -/
def clearPendingEvents (rl : RateLimiter) (channel walletKey : String) : RateLimiter :=
  { rl with pending := adel rl.pending (channel, walletKey) }

/-- One recorded invocation of `_send_notification` (dispatcher.py:105-130).
`ok` records whether the channel handler succeeded; a raising handler is caught
at dispatcher.py:129-130 and changes no limiter state, so `ok` is observational
only.  `walletKey` and `time` are bookkeeping for stating temporal claims. -/
structure SendRec where
  channel : String
  walletKey : String
  time : Int
  events : List NEvent
  ok : Bool
deriving DecidableEq, Repr

/-- A send-outcome oracle: whether the channel handler call raises for a given
invocation.  The dispatcher's behaviour must not depend on it. -/
abbrev SendOracle := String → List NEvent → Int → Bool

/-- dispatcher.py:105-130, `_send_notification`: with no registered handler the
call returns without sending (dispatcher.py:108-110); otherwise the handler is
invoked exactly once with the whole batch, and any exception it raises is
caught and logged (dispatcher.py:129-130), mutating nothing. -/
def sendBatch (oracle : SendOracle) (log : List SendRec)
    (channel walletKey : String) (events : List NEvent) (now : Int) : List SendRec :=
  if channel ∈ CHANNEL_HANDLERS then
    log ++ [⟨channel, walletKey, now, events, oracle channel events now⟩]
  else log

/-- dispatcher.py:83-103, `process_event_notification`. -/
def processEvent (oracle : SendOracle) (rl : RateLimiter) (log : List SendRec)
    (channel : String) (e : NEvent) (now : Int) : RateLimiter × List SendRec :=
  let walletKey := getWalletKey e
  let checked := canSendNotification rl channel walletKey now
  if checked.1 then
    let rl1 := checked.2
    let pending := pendD rl1 (channel, walletKey)
    let allEvents := pending ++ [e]
    let rl2 := if pending ≠ [] then clearPendingEvents rl1 channel walletKey else rl1
    (rl2, sendBatch oracle log channel walletKey allEvents now)
  else
    (addPendingEvent checked.2 channel walletKey e, log)

/-- Flush condition for one pending entry (dispatcher.py:187): cooldown elapsed
and a non-empty queue, both judged against the state at the start of the call. -/
def flushCond (rl : RateLimiter) (now : Int) (p : GateKey × List NEvent) : Bool :=
  decide (now - lastD rl p.1 > cdOf rl.cooldowns p.1.1) && !p.2.isEmpty

/-- Body of the flush loop (dispatcher.py:190-194): clear the key's queue,
stamp `last_sent[key] = now`, and send the batch captured at scan time. -/
def flushStep (oracle : SendOracle) (now : Int) (st : RateLimiter × List SendRec)
    (p : GateKey × List NEvent) : RateLimiter × List SendRec :=
  let rl1 := clearPendingEvents st.1 p.1.1 p.1.2
  let rl2 := { rl1 with lastSent := aset rl1.lastSent p.1 now }
  (rl2, sendBatch oracle st.2 p.1.1 p.1.2 p.2 now)

/-- dispatcher.py:177-194, `flush_pending_notifications`: collect the entries
whose cooldown has elapsed (against the starting state), then for each one
clear its queue, stamp `last_sent[key] = now`, and send the captured batch. -/
def flushPending (oracle : SendOracle) (rl : RateLimiter) (log : List SendRec)
    (now : Int) : RateLimiter × List SendRec :=
  (rl.pending.filter (flushCond rl now)).foldl (flushStep oracle now) (rl, log)

/-- The two entry points that drive the limiter: `dispatch_notification`
(per-channel `process_event_notification`, dispatcher.py:214-230) and the
periodic `flush_pending_notifications` (dispatcher.py:232-239). -/
inductive GateOp where
  | process (channel : String) (e : NEvent)
  | flush
deriving DecidableEq, Repr

/-- One scheduler step of the dispatcher at wall-clock time `t`. -/
def gateStep (oracle : SendOracle) (s : RateLimiter × List SendRec)
    (opt : GateOp × Int) : RateLimiter × List SendRec :=
  match opt.1 with
  | .process channel e => processEvent oracle s.1 s.2 channel e opt.2
  | .flush => flushPending oracle s.1 s.2 opt.2

/-- A run of the dispatcher over a timed sequence of operations. -/
def gateRun (oracle : SendOracle) (s : RateLimiter × List SendRec)
    (ops : List (GateOp × Int)) : RateLimiter × List SendRec :=
  ops.foldl (gateStep oracle) s

/-- Times are non-decreasing and bounded below by `t0` (the single cooperative
scheduler observes a monotone clock). -/
def timesOk : List (GateOp × Int) → Int → Bool
  | [], _ => true
  | p :: rest, t0 => decide (t0 ≤ p.2) && timesOk rest p.2

/-! ### EventDeduplicator (event_deduplicator.py) -/

/-- The fields of an event dict that `EventDeduplicator` reads, with the
source's `event.get(k, default)` defaults baked in (event_deduplicator.py:45-48,
117-118, 173-176). -/
structure DEvent where
  wallet : String := "unknown"
  coin : String := "unknown"
  etype : String := "unknown"
  usdValue : Int := 0
deriving DecidableEq, Repr

/-- State of `EventDeduplicator` (event_deduplicator.py:15-38). -/
structure Dedup where
  windowSeconds : Int
  maxSimilarEvents : Nat
  eventSignatures : List (String × List Int)
  suppressedEvents : List (String × List DEvent)
  walletEventCounts : List (String × Nat)
  lastCleanup : Int
  lastSummaryTime : Int
  summaryInterval : Int
deriving Repr

/-- `EventDeduplicator(window_seconds, max_similar_events)` constructed at
wall-clock time `t0` (event_deduplicator.py:15-38). -/
def mkDedup (windowSeconds : Int) (maxSimilarEvents : Nat) (t0 : Int) : Dedup :=
  { windowSeconds := windowSeconds
    maxSimilarEvents := maxSimilarEvents
    eventSignatures := []
    suppressedEvents := []
    walletEventCounts := []
    lastCleanup := t0
    lastSummaryTime := t0
    summaryInterval := 300 }

/-- The module-level instance (event_deduplicator.py:244-247):
`EventDeduplicator(window_seconds=180, max_similar_events=2)`. -/
def eventDeduplicator (t0 : Int) : Dedup := mkDedup 180 2 t0

/-- event_deduplicator.py:50-62, the USD value bucket of `_generate_signature`. -/
def valueRange (usd : Int) : String :=
  if usd < 10 then "micro"
  else if usd < 100 then "small"
  else if usd < 1000 then "medium"
  else if usd < 10000 then "large"
  else if usd < 100000 then "xlarge"
  else "whale"

/-- event_deduplicator.py:64-68: the string hashed by `_generate_signature`.
`int(time.time() // 300)` is floor division, `Int.fdiv`. -/
def signatureData (e : DEvent) (now : Int) : String :=
  e.wallet.take 12 ++ ":" ++ e.coin ++ ":" ++ e.etype ++ ":" ++
    valueRange e.usdValue ++ ":" ++ toString (Int.fdiv now 300)

/-- event_deduplicator.py:40-71, `_generate_signature`, parametrized by the
hash function `h` standing for `md5(...).hexdigest()`. -/
def generateSignature (h : String → String) (e : DEvent) (now : Int) : String :=
  (h (signatureData e now)).take 16

/-- event_deduplicator.py:73-106, `_cleanup_old_entries`: at most once per 120s,
keep only timestamps strictly newer than `now - window_seconds`, delete
signatures whose list empties, and delete suppressed buckets whose signature is
gone. -/
def cleanupOldEntries (d : Dedup) (now : Int) : Dedup :=
  if now - d.lastCleanup < 120 then d
  else
    let cutoff := now - d.windowSeconds
    let sigs :=
      (d.eventSignatures.map (fun p => (p.1, p.2.filter (fun ts => cutoff < ts)))).filter
        (fun p => !p.2.isEmpty)
    let supp := d.suppressedEvents.filter (fun p => (aget sigs p.1).isSome)
    { d with eventSignatures := sigs, suppressedEvents := supp, lastCleanup := now }

/-- event_deduplicator.py:108-160, `should_allow_event`.  Returns the decision
together with the updated state. -/
def shouldAllowEvent (h : String → String) (d0 : Dedup) (e : DEvent) (now : Int) :
    Bool × Dedup :=
  let d := cleanupOldEntries d0 now
  let signature := generateSignature h e now
  let wallet := e.wallet
  let usd := e.usdValue
  -- lines 121-123: initialize tracking for an unseen signature
  let d :=
    if (aget d.eventSignatures signature).isNone then
      { d with eventSignatures := aset d.eventSignatures signature []
               suppressedEvents := aset d.suppressedEvents signature [] }
    else d
  let sigList := (aget d.eventSignatures signature).getD []
  -- lines 126-129: recent admissions with the same signature
  let recentCount := (sigList.filter (fun ts => now - ts ≤ d.windowSeconds)).length
  if 50000 ≤ usd then
    -- lines 134-137: high-value events always get through
    (true, { d with eventSignatures := aset d.eventSignatures signature (sigList ++ [now]) })
  else if 10000 ≤ usd ∧ recentCount < d.maxSimilarEvents * 2 then
    -- lines 140-143: medium-value events, relaxed cap
    (true, { d with eventSignatures := aset d.eventSignatures signature (sigList ++ [now]) })
  else if recentCount < d.maxSimilarEvents then
    -- lines 146-155: standard tier, also bumps the wallet activity counter
    (true,
      { d with
          eventSignatures := aset d.eventSignatures signature (sigList ++ [now])
          walletEventCounts :=
            aset d.walletEventCounts wallet ((aget d.walletEventCounts wallet).getD 0 + 1) })
  else
    -- lines 157-160: suppress, remembering the event for the summary
    (false,
      { d with
          suppressedEvents :=
            aset d.suppressedEvents signature
              ((aget d.suppressedEvents signature).getD [] ++ [e]) })

/-- The structured content of a suppressed-activity summary
(event_deduplicator.py:186-200).  `coins` and `eventTypes` are Python sets
turned into lists; set iteration order is unspecified, modeled here as
first-occurrence order.  The derived `summary_message` string (pure formatting
of these same fields) is not modeled. -/
structure Summary where
  wallet : String
  suppressedCount : Nat
  eventTypes : List String
  coins : List String
  totalUsdValue : Int
  timeWindow : Int
  activityLevel : String
deriving DecidableEq, Repr

/-- event_deduplicator.py:162-200, `get_suppressed_summary`, reading a given
suppressed-events table. -/
def getSummaryOn (supp : List (String × List DEvent)) (windowSeconds : Int)
    (signature : String) : Option Summary :=
  match aget supp signature with
  | none => none
  | some events =>
    match events with
    | [] => none
    | e0 :: _ =>
      let totalCount := events.length
      some
        { wallet := e0.wallet
          suppressedCount := totalCount
          eventTypes := (events.map (fun e => e.etype)).eraseDups
          coins := (events.map (fun e => e.coin)).eraseDups
          totalUsdValue := (events.map (fun e => e.usdValue)).sum
          timeWindow := windowSeconds
          activityLevel :=
            if 10 ≤ totalCount then "High Bot Activity"
            else if 5 ≤ totalCount then "Moderate Bot Activity"
            else "Similar Events" }

/-- `get_suppressed_summary` on the deduplicator's own state. -/
def getSuppressedSummary (d : Dedup) (signature : String) : Option Summary :=
  getSummaryOn d.suppressedEvents d.windowSeconds signature

/-- The body of the loop of `get_all_suppressed_summaries`
(event_deduplicator.py:211-217): summarize one signature against the evolving
suppressed-events table, appending the summary and clearing the signature's
list when it qualifies (at least 3 suppressed events). -/
def summStep (W : Int) (st : List Summary × List (String × List DEvent))
    (sig : String) : List Summary × List (String × List DEvent) :=
  match getSummaryOn st.2 W sig with
  | some summary =>
    if 3 ≤ summary.suppressedCount then
      (st.1 ++ [summary], aset st.2 sig [])
    else st
  | none => st

/-- event_deduplicator.py:202-222, `get_all_suppressed_summaries`: gated to at
most once per `summary_interval`; emits one summary per signature whose
suppressed list has at least 3 events and clears exactly those lists;
`last_summary_time` advances only when something was emitted. -/
def getAllSuppressedSummaries (d : Dedup) (now : Int) : List Summary × Dedup :=
  if now - d.lastSummaryTime < d.summaryInterval then ([], d)
  else
    let st :=
      (d.suppressedEvents.map Prod.fst).foldl (summStep d.windowSeconds)
        ([], d.suppressedEvents)
    (st.1,
      { d with
          suppressedEvents := st.2
          lastSummaryTime := if st.1 ≠ [] then now else d.lastSummaryTime })

/-- Record of one `should_allow_event` call in a run: the signature it
computed, the call time, the event's USD value, and the decision. -/
structure DedupRec where
  sig : String
  time : Int
  usd : Int
  allowed : Bool
deriving DecidableEq, Repr

/-- A run of the deduplicator over a timed event sequence, logging each call. -/
def dedupRun (h : String → String) (s : Dedup × List DedupRec) :
    List (DEvent × Int) → Dedup × List DedupRec
  | [] => s
  | (e, t) :: rest =>
    let r := shouldAllowEvent h s.1 e t
    dedupRun h (r.2, s.2 ++ [⟨generateSignature h e t, t, e.usdValue, r.1⟩]) rest

/-- Times are non-decreasing and bounded below by `t0`. -/
def dtimesOk : List (DEvent × Int) → Int → Bool
  | [], _ => true
  | p :: rest, t0 => decide (t0 ≤ p.2) && dtimesOk rest p.2

/-- Standard-tier admissions of a given signature in a run log: events with
`usdValue` below the medium-value tier that `should_allow_event` admitted. -/
def stdTimes (log : List DedupRec) (s : String) : List Int :=
  (log.filter (fun r => r.sig = s && r.allowed && decide (r.usd < 10000))).map
    (fun r => r.time)

/-! ### HyperCoreClient (hypercore_client.py) -/

/-- hypercore_client.py:500-512: the reconnect delay computed from the
consecutive-failure count at the bottom of the connect loop. -/
def reconnectDelay (n : Nat) : Nat :=
  if n ≤ 3 then 2
  else if n ≤ 10 then 5
  else min 30 n

/-- Outcome of one iteration of the `connect_and_run` loop
(hypercore_client.py:426-512) as far as the consecutive-failure counter can
tell them apart. -/
inductive IterOutcome where
  /-- `websockets.connect` (or anything before line 444) raised: the
  `except` arms at lines 472-488 increment the counter. -/
  | connectFailed
  /-- The transport connected (line 444 ran), `subscribe_to_all_wallets`
  returned `False`, and line 456 `continue`d to the next iteration. -/
  | subscribeFailed
  /-- The transport connected and subscriptions succeeded, but the message
  loop later raised, landing in the `except` arms. -/
  | listenFailed
  /-- The transport connected, subscriptions succeeded, and the message loop
  ended without an exception. -/
  | listenEnded
deriving DecidableEq, Repr

/-- Value of `consecutive_failures` after one loop iteration that started with
count `n`.  Line 444 sets the counter to `0` immediately after the transport
connects, before `subscribe_to_all_wallets()` is awaited at line 453; the
`except` arms (lines 472-488) add one to whatever the counter holds. -/
def nextFailures (n : Nat) : IterOutcome → Nat
  | .connectFailed => n + 1
  | .subscribeFailed => 0
  | .listenFailed => 0 + 1
  | .listenEnded => 0

/-- JSON-ish payload values as the client sees them after `json.loads`. -/
inductive PyVal where
  | vnone
  | vstr (s : String)
  | vlist (xs : List PyVal)
  | vdict (fields : List (String × PyVal))

/-- Python truthiness for the payload values above. -/
def PyVal.truthy : PyVal → Bool
  | .vnone => false
  | .vstr s => s ≠ ""
  | .vlist xs => !xs.isEmpty
  | .vdict fs => !fs.isEmpty

/-- Python `str(v)` restricted to the values that occur in wallet fields of
this wire protocol, which are JSON strings; the renderings of the other
constructors are fixed stand-ins (never watched wallets, so no claim under
study depends on them). -/
def PyVal.pyStr : PyVal → String
  | .vnone => "None"
  | .vstr s => s
  | .vlist _ => "<list>"
  | .vdict _ => "<dict>"

/-- hypercore_client.py:77: the field names probed for a wallet. -/
def walletFields : List String :=
  ["user", "wallet", "address", "account", "from", "to", "owner", "trader", "userAddress"]

/-- hypercore_client.py:85: placeholder values rejected as wallets. -/
def badWallets : List String := ["unknown", "multiple_wallets", "0x0", "null"]

/-- Inner loop of `check_dict_for_wallet` (hypercore_client.py:82-89): probe
the fields in order; a present, truthy value whose stripped string form is
non-empty and not a placeholder wins; anything else falls through. -/
def goFields : List String → List (String × PyVal) → Option String
  | [], _ => none
  | f :: restFields, fs =>
    match aget fs f with
    | some v =>
      if v.truthy then
        let wallet := v.pyStr.trim
        if wallet ≠ "" ∧ wallet ∉ badWallets then some wallet
        else goFields restFields fs
      else goFields restFields fs
    | none => goFields restFields fs

/-- hypercore_client.py:79-89, `check_dict_for_wallet`: `None` on a non-dict. -/
def checkDictForWallet : PyVal → Option String
  | .vdict fs => goFields walletFields fs
  | _ => none

/-- hypercore_client.py:75-114, `extract_wallet_from_event_data`: the raw
event's own fields first; then, for a list payload, its first item; for a dict
payload, the dict itself, then its nested `data`, then `fills[0]`. -/
def extractWallet (eventData : Option PyVal) (rawEvent : List (String × PyVal)) :
    Option String :=
  match checkDictForWallet (.vdict rawEvent) with
  | some w => some w
  | none =>
    match eventData with
    | some (.vlist (x :: _)) => checkDictForWallet x
    | some (.vdict fs) =>
      match checkDictForWallet (.vdict fs) with
      | some w => some w
      | none =>
        let fromNested :=
          match aget fs "data" with
          | some nd => if nd.truthy then checkDictForWallet nd else none
          | none => none
        match fromNested with
        | some w => some w
        | none =>
          match aget fs "fills" with
          | some (.vlist (x :: _)) => checkDictForWallet x
          | _ => none
    | _ => none

/-- The parts of `HyperCoreClient` state that wallet routing reads:
`WATCHED_WALLETS` (fixed at startup, hypercore_client.py:68-69) and the
per-channel subscription sets (hypercore_client.py:60, 245-247).  A Python
`set` of wallets is modeled as an insertion-ordered duplicate-free list: one
concretization of CPython's unspecified set iteration order. -/
structure Client where
  watchedWallets : List String
  walletSubscriptions : List (String × List String)

/-- hypercore_client.py:247, `self.wallet_subscriptions[channel_type].add(wallet)`
under the insertion-order concretization of a Python set. -/
def subsAdd (subs : List String) (w : String) : List String :=
  if w ∈ subs then subs else subs ++ [w]

/-- hypercore_client.py:116-120, `is_watched_wallet`. -/
def isWatchedWallet (c : Client) (wallet : String) : Bool :=
  if wallet = "" ∨ wallet = "unknown" then false
  else wallet.toLower ∈ c.watchedWallets.map String.toLower

/-- hypercore_client.py:122-126, `get_original_wallet_case`: the dict
comprehension `{w.lower(): w for w in WATCHED_WALLETS}` keeps the last entry
for a repeated lowercase form, hence the reversed lookup. -/
def getOriginalWalletCase (c : Client) (wallet : String) : String :=
  if wallet = "" then wallet
  else
    ((c.watchedWallets.reverse.map (fun w => (w.toLower, w))).lookup wallet.toLower).getD
      wallet

/-- hypercore_client.py:356-380, `process_single_event` up to the call into the
external parser: non-dict payloads are dropped (line 359-362), and the wallet
is re-validated against the watched set (line 365-368) before anything is
forwarded.  A forwarded pair `(payload, wallet)` is what reaches
`parse_event`/the alert engine. -/
def processSingle (c : Client) (eventData : PyVal) (wallet : String) :
    Option (PyVal × String) :=
  match eventData with
  | .vdict fs =>
    if isWatchedWallet c wallet then some (.vdict fs, wallet) else none
  | _ => none

/-- hypercore_client.py:333-354: dispatch of the payload once an outer wallet
has been fixed.  For a list payload each item is re-examined: an extracted
watched wallet overrides, an extracted non-watched wallet skips the item
(line 341-344), no extraction keeps the outer wallet. -/
def processData (c : Client) (rawEvent : List (String × PyVal))
    (eventData : Option PyVal) (wallet : String) : List (PyVal × String) :=
  match eventData with
  | some (.vlist xs) =>
    xs.filterMap
      (fun single =>
        match extractWallet (some single) rawEvent with
        | some ew =>
          if isWatchedWallet c ew then processSingle c single (getOriginalWalletCase c ew)
          else none
        | none => processSingle c single wallet)
  | some (.vdict fs) => (processSingle c (.vdict fs) wallet).toList
  | _ => []

/-- hypercore_client.py:294-354, `_handle_wallet_event`, from a resolved
wallet candidate onward (lines 305-331): a resolved non-watched wallet drops
the whole message (line 307-310); an unresolved wallet falls back to an element
of the channel's subscription set (lines 315-320, Python `list(subs)[0]`,
modeled as the head of the insertion-ordered list); messages still without a
wallet are dropped (line 322-325). -/
def handleResolved (c : Client) (rawEvent : List (String × PyVal))
    (eventData : Option PyVal) (channel : String) (w : Option String) :
    List (PyVal × String) :=
  let step1 : Option (Option String) :=
    match w with
    | some wl =>
      if wl = "" ∨ wl = "unknown" then some none
      else if isWatchedWallet c wl then some (some (getOriginalWalletCase c wl))
      else none
    | none => some none
  match step1 with
  | none => []
  | some w1 =>
    let w2 : Option String :=
      match w1 with
      | some x => some x
      | none =>
        match aget c.walletSubscriptions channel with
        | some (x :: _) => some x
        | _ => none
    match w2 with
    | none => []
    | some wallet =>
      if wallet = "" ∨ wallet = "unknown" then []
      else processData c rawEvent eventData wallet

/-- Python `raw_event.get("user") or raw_event.get("wallet")`
(hypercore_client.py:299-301): first truthy value wins. -/
def topWalletField (rawEvent : List (String × PyVal)) : Option PyVal :=
  match aget rawEvent "user" with
  | some v =>
    if v.truthy then some v
    else
      match aget rawEvent "wallet" with
      | some v2 => if v2.truthy then some v2 else none
      | none => none
  | none =>
    match aget rawEvent "wallet" with
    | some v2 => if v2.truthy then some v2 else none
    | none => none

/-- hypercore_client.py:294-354, `_handle_wallet_event`.  The result is the
list of `(payload, wallet)` pairs forwarded to the external parser and from
there to alerting.  A truthy non-string top-level `user`/`wallet` value would
raise in `wallet.lower()` and be swallowed by `handle_event`'s catch-all
(hypercore_client.py:278-280), dropping the message: modeled as `[]`. -/
def handleWalletEvent (c : Client) (rawEvent : List (String × PyVal))
    (channel : String) : List (PyVal × String) :=
  let eventData := aget rawEvent "data"
  match topWalletField rawEvent with
  | some (.vstr s) => handleResolved c rawEvent eventData channel (some s)
  | some _ => []
  | none => handleResolved c rawEvent eventData channel (extractWallet eventData rawEvent)

/-- The nested-payload leg of the extraction chain
(hypercore_client.py:103-106): `event_data.get('data')`, probed when truthy. -/
def nestedWallet (fs : List (String × PyVal)) : Option String :=
  match aget fs "data" with
  | some nd => if nd.truthy then checkDictForWallet nd else none
  | none => none

/-- The per-item leg of the extraction chain for dict payloads
(hypercore_client.py:109-112): the first element of a non-empty `fills` list. -/
def fillsWallet (fs : List (String × PyVal)) : Option String :=
  match aget fs "fills" with
  | some (.vlist (x :: _)) => checkDictForWallet x
  | _ => none

/-! ### Properties and observations used to state the claims -/

/-- A table has no repeated keys (all Python dicts do). -/
def nodupKeys {κ β : Type} (m : List (κ × β)) : Prop := (m.map Prod.fst).Nodup

/-- Two send records for the same gate key are separated by more than the
channel's cooldown. -/
def GapR (cooldowns : List (String × Int)) (r1 r2 : SendRec) : Prop :=
  r1.channel = r2.channel → r1.walletKey = r2.walletKey →
    cdOf cooldowns r1.channel < r2.time - r1.time

/-- Run invariant of the dispatcher at time bound `T`: the cooldown table is
the module constant, every logged send is no later than `T` and no later than
its key's recorded timestamp, recorded timestamps are at most `T`, pending
keys are unique, and logged sends obey the cooldown gap pairwise. -/
def GateInv (s : RateLimiter × List SendRec) (T : Int) : Prop :=
  s.1.cooldowns = CHANNEL_COOLDOWNS ∧
  (∀ r ∈ s.2, r.time ≤ T) ∧
  (∀ r ∈ s.2, r.time ≤ lastD s.1 (r.channel, r.walletKey)) ∧
  (∀ key, lastD s.1 key ≤ T) ∧
  nodupKeys s.1.pending ∧
  s.2.Pairwise (GapR CHANNEL_COOLDOWNS)

/-- Number of copies of alert `e` across all logged send batches. -/
def logCount (log : List SendRec) (e : NEvent) : Nat :=
  (log.map (fun r => r.events.count e)).sum

/-- Number of copies of alert `e` across all pending queues. -/
def pendCount (m : List (GateKey × List NEvent)) (e : NEvent) : Nat :=
  (m.map (fun p => p.2.count e)).sum

/-- Number of times alert `e` enters the dispatcher in an operation sequence. -/
def opsCount (ops : List (GateOp × Int)) (e : NEvent) : Nat :=
  ops.countP fun p =>
    match p.1 with
    | .process _ e' => decide (e' = e)
    | .flush => false

/-- Every `process` operation targets a channel with a registered handler
(as `dispatch_notification`'s default channel list does, dispatcher.py:222-223). -/
def opsSupported (ops : List (GateOp × Int)) : Bool :=
  ops.all fun p =>
    match p.1 with
    | .process ch _ => decide (ch ∈ CHANNEL_HANDLERS)
    | .flush => true

/-- Bookkeeping invariant for alert conservation: pending keys are unique and
name only channels with registered handlers. -/
def consOk (s : RateLimiter × List SendRec) : Prop :=
  nodupKeys s.1.pending ∧ ∀ p ∈ s.1.pending, p.1.1 ∈ CHANNEL_HANDLERS

/-- A send record minus its handler outcome: what the dispatcher decided,
independent of whether the channel call then raised. -/
def dropOk (r : SendRec) : String × String × Int × List NEvent :=
  (r.channel, r.walletKey, r.time, r.events)

/-- The spec's three-tier admission policy (section 4.2), as a function of the
event's USD value, the recent-admission count for its signature, and the
configured limit. -/
def tierPolicy (usd : Int) (recentCount limit : Nat) : Bool :=
  if 50000 ≤ usd then true
  else if 10000 ≤ usd then decide (recentCount < 2 * limit)
  else decide (recentCount < limit)

/-- The deduplicator state actually consulted by a `should_allow_event` call:
after the cleanup sweep and the lazy initialization of the event's signature
(event_deduplicator.py:113-123). -/
def preState (h : String → String) (d0 : Dedup) (e : DEvent) (now : Int) : Dedup :=
  let d := cleanupOldEntries d0 now
  let signature := generateSignature h e now
  if (aget d.eventSignatures signature).isNone then
    { d with eventSignatures := aset d.eventSignatures signature []
             suppressedEvents := aset d.suppressedEvents signature [] }
  else d

/-- Recent admissions recorded for a signature within the rolling window
(event_deduplicator.py:126-129). -/
def recentCountOf (d : Dedup) (sig : String) (now : Int) : Nat :=
  (((aget d.eventSignatures sig).getD []).filter
    (fun ts => now - ts ≤ d.windowSeconds)).length

/-- Stored admission timestamps for a signature. -/
def storedD (d : Dedup) (s : String) : List Int := (aget d.eventSignatures s).getD []

/-- All admissions (any tier) of a given signature in a run log. -/
def admitTimes (log : List DedupRec) (s : String) : List Int :=
  (log.filter (fun r => r.sig = s && r.allowed)).map (fun r => r.time)

/-- Run invariant of the deduplicator at time bound `T`: log times are at most
`T`; for every signature, admissions at any still-recent instant are all still
stored (so the recent-count seen by the code undercounts nothing that is
strictly within the window); signature keys are unique; and the rolling
standard-tier cap already holds for every half-open window. -/
def CapInv (d : Dedup) (log : List DedupRec) (T : Int) : Prop :=
  (∀ r ∈ log, r.time ≤ T) ∧
  (∀ s t', T - t' < d.windowSeconds →
    (admitTimes log s).count t' ≤ (storedD d s).count t') ∧
  nodupKeys d.eventSignatures ∧
  (∀ s a, (stdTimes log s).countP
      (fun u => decide (a ≤ u ∧ u < a + d.windowSeconds)) ≤ d.maxSimilarEvents)

/-- Spec-side description of the one summary emitted for a stored
suppressed-events entry, written from the spec's words for comparison with the
code's fold: a signature qualifies when its suppressed list holds at least 3
events, and its summary carries the first event's wallet, the suppressed
count, the distinct event types and coins, the total USD value, the window,
and an activity label from the count thresholds (at least 10 High, at least 5
Moderate, else Similar). -/
def specSummaryOf (W : Int) (p : String × List DEvent) : Option Summary :=
  match p.2 with
  | [] => none
  | e0 :: _ =>
    if 3 ≤ p.2.length then
      some
        { wallet := e0.wallet
          suppressedCount := p.2.length
          eventTypes := (p.2.map (fun e => e.etype)).eraseDups
          coins := (p.2.map (fun e => e.coin)).eraseDups
          totalUsdValue := (p.2.map (fun e => e.usdValue)).sum
          timeWindow := W
          activityLevel :=
            if 10 ≤ p.2.length then "High Bot Activity"
            else if 5 ≤ p.2.length then "Moderate Bot Activity"
            else "Similar Events" }
    else none

/-! ### Concrete inputs for witnesses and counterexamples -/

/-- A five-dollar DOGE fill (Scenario B of the spec). -/
def evB : DEvent := { wallet := "0xDEF456abcdef", coin := "DOGE", etype := "fill", usdValue := 5 }

/-- A sixty-thousand-dollar fill (the high-value override scenario). -/
def ev60k : DEvent := { wallet := "0xABC123abcdef", coin := "BTC", etype := "fill", usdValue := 60000 }

/-- Ten consecutive $60,000 fills for one wallet/coin within one second. -/
def tenFills : List (DEvent × Int) := List.replicate 10 (ev60k, 0)

/-- A watched-wallet client whose `userFills` subscription set received
`0xAAA1xyz` first and `0xBBB2xyz` last. -/
def cxClient : Client :=
  { watchedWallets := ["0xAAA1xyz", "0xBBB2xyz"]
    walletSubscriptions := [("userFills", subsAdd (subsAdd [] "0xAAA1xyz") "0xBBB2xyz")] }

/-- A raw `userFills` message carrying no wallet field anywhere. -/
def cxRaw : List (String × PyVal) :=
  [("channel", .vstr "userFills"), ("data", .vdict [("px", .vstr "10")])]

/-- A telegram alert used by the dispatcher witnesses. -/
def evWit : NEvent := { wallet := some "0xCAFE42deadbeef" }

/-- Two fills sharing wallet, coin, type and value bucket but differing in
exact USD value (and in nothing else that the signature reads). -/
def evSigA : DEvent := { wallet := "0xABC123abcdef", coin := "BTC", etype := "fill", usdValue := 5 }

/-- Companion event for the signature-determinism witness. -/
def evSigB : DEvent := { wallet := "0xABC123abcdef", coin := "BTC", etype := "fill", usdValue := 7 }

/-! ### Association table lemmas -/

theorem aget_aset_self {κ β : Type} [DecidableEq κ] (m : List (κ × β)) (k : κ) (v : β) :
    aget (aset m k v) k = some v := by
  induction m with
  | nil => simp [aget, aset]
  | cons p rest ih =>
    by_cases h : p.1 = k
    · simp [aset, h, aget]
    · simp [aset, h, aget, ih]

theorem aget_aset_ne {κ β : Type} [DecidableEq κ] (m : List (κ × β)) (k k' : κ) (v : β)
    (h : k' ≠ k) : aget (aset m k v) k' = aget m k' := by
  induction m with
  | nil => simp [aget, aset, Ne.symm h]
  | cons p rest ih =>
    by_cases hp : p.1 = k
    · subst hp
      simp [aset, aget, Ne.symm h, h]
    · by_cases hp' : p.1 = k'
      · simp [aset, hp, aget, hp', h]
      · simp [aset, hp, aget, hp', ih]

theorem adel_cons_eq {κ β : Type} [DecidableEq κ] (p : κ × β) (rest : List (κ × β))
    (k : κ) (h : p.1 = k) : adel (p :: rest) k = adel rest k := by
  simp [adel, List.filter_cons, h]

theorem adel_cons_ne {κ β : Type} [DecidableEq κ] (p : κ × β) (rest : List (κ × β))
    (k : κ) (h : ¬p.1 = k) : adel (p :: rest) k = p :: adel rest k := by
  simp [adel, List.filter_cons, h]

theorem aget_adel_self {κ β : Type} [DecidableEq κ] (m : List (κ × β)) (k : κ) :
    aget (adel m k) k = none := by
  induction m with
  | nil => simp [adel, aget]
  | cons p rest ih =>
    by_cases h : p.1 = k
    · rw [adel_cons_eq p rest k h]
      exact ih
    · rw [adel_cons_ne p rest k h]
      simp [aget, h, ih]

theorem aget_adel_ne {κ β : Type} [DecidableEq κ] (m : List (κ × β)) (k k' : κ)
    (h : k' ≠ k) : aget (adel m k) k' = aget m k' := by
  induction m with
  | nil => simp [adel, aget]
  | cons p rest ih =>
    by_cases hp : p.1 = k
    · rw [adel_cons_eq p rest k hp]
      have hne : p.1 ≠ k' := by
        rw [hp]
        exact fun hc => h hc.symm
      simp [aget, hne, ih]
    · rw [adel_cons_ne p rest k hp]
      by_cases hp' : p.1 = k'
      · simp [aget, hp']
      · simp [aget, hp', ih]

theorem keys_aset_subset {κ β : Type} [DecidableEq κ] (m : List (κ × β)) (k : κ) (v : β) :
    ((aset m k v).map Prod.fst) = if k ∈ m.map Prod.fst then m.map Prod.fst
      else m.map Prod.fst ++ [k] := by
  induction m with
  | nil => simp [aset]
  | cons p rest ih =>
    by_cases h : p.1 = k
    · simp [aset, h]
    · simp only [aset, if_neg h, List.map_cons, ih]
      by_cases hk : k ∈ rest.map Prod.fst
      · simp [hk, Ne.symm h]
      · simp [hk, Ne.symm h]

theorem nodupKeys_aset {κ β : Type} [DecidableEq κ] (m : List (κ × β)) (k : κ) (v : β)
    (h : nodupKeys m) : nodupKeys (aset m k v) := by
  unfold nodupKeys at *
  rw [keys_aset_subset]
  by_cases hk : k ∈ m.map Prod.fst
  · simpa [hk]
  · simpa [hk, List.nodup_append] using h

theorem nodupKeys_adel {κ β : Type} [DecidableEq κ] (m : List (κ × β)) (k : κ)
    (h : nodupKeys m) : nodupKeys (adel m k) := by
  unfold nodupKeys at *
  exact List.Nodup.sublist ((List.filter_sublist m).map Prod.fst) h

theorem nodupKeys_cons {κ β : Type} [DecidableEq κ] {p : κ × β} {rest : List (κ × β)}
    (h : nodupKeys (p :: rest)) : p.1 ∉ rest.map Prod.fst ∧ nodupKeys rest := by
  unfold nodupKeys at *
  simpa [List.nodup_cons] using h

theorem aget_mem {κ β : Type} [DecidableEq κ] {m : List (κ × β)} {k : κ} {v : β}
    (h : aget m k = some v) : (k, v) ∈ m := by
  induction m with
  | nil => simp [aget] at h
  | cons p rest ih =>
    obtain ⟨a, b⟩ := p
    by_cases hp : a = k
    · subst hp
      simp only [aget, if_pos rfl] at h
      injection h with h2
      subst h2
      exact List.mem_cons_self _ _
    · simp only [aget, if_neg hp] at h
      exact List.mem_cons_of_mem _ (ih h)

theorem mem_aget {κ β : Type} [DecidableEq κ] {m : List (κ × β)} {k : κ} {v : β}
    (hmem : (k, v) ∈ m) (hnd : nodupKeys m) : aget m k = some v := by
  induction m with
  | nil => simp at hmem
  | cons p rest ih =>
    rcases List.mem_cons.1 hmem with h | h
    · cases h
      simp [aget]
    · have hk : p.1 ≠ k := by
        intro hc
        have hm : k ∈ rest.map Prod.fst := List.mem_map.2 ⟨(k, v), h, rfl⟩
        exact (nodupKeys_cons hnd).1 (hc ▸ hm)
      simp [aget, hk, ih h (nodupKeys_cons hnd).2]

/-! ### Claim C8: reconnection backoff -/

/-- C8: the reconnect delay is 2s for the first three consecutive failures,
5s for failures four through ten, and `min 30 n` beyond ten (so 12 failures
give a 12-second delay); it is non-decreasing in the failure count and never
exceeds 30 seconds. -/
theorem c8_reconnect_delay :
    (reconnectDelay 1 = 2 ∧ reconnectDelay 2 = 2 ∧ reconnectDelay 3 = 2) ∧
    (reconnectDelay 4 = 5 ∧ reconnectDelay 5 = 5 ∧ reconnectDelay 6 = 5 ∧
      reconnectDelay 7 = 5 ∧ reconnectDelay 8 = 5 ∧ reconnectDelay 9 = 5 ∧
      reconnectDelay 10 = 5) ∧
    (∀ n : Nat, reconnectDelay (n + 11) = min 30 (n + 11)) ∧
    reconnectDelay 12 = 12 ∧
    (∀ n : Nat, reconnectDelay n ≤ reconnectDelay (n + 1)) ∧
    (∀ n : Nat, reconnectDelay n ≤ 30) := by
  refine ⟨by decide, by decide, ?_, by decide, ?_, ?_⟩
  · intro n
    unfold reconnectDelay
    split_ifs <;> omega
  · intro n
    unfold reconnectDelay
    split_ifs <;> omega
  · intro n
    unfold reconnectDelay
    split_ifs <;> omega

/-! ### Claim C3: failure-counter reset -/

/-- C3 counterexample: with five consecutive failures on record, an iteration
whose transport connect succeeds but whose subscription phase fails leaves the
counter at 0 — the reset at hypercore_client.py:444 happens on connection
alone, before `subscribe_to_all_wallets` runs, contradicting the claim that
the counter becomes zero only after a full connect+subscribe success. -/
theorem c3_counterexample :
    nextFailures 5 .subscribeFailed = 0 ∧ (0 : Nat) ≠ 5 := by decide

/-- C3 (amended): the counter becomes zero exactly when the transport
connection succeeded and the message loop did not subsequently raise — a
successful connect with a failed subscription phase also resets it; only a
failed connect (increment) or a post-subscribe listen error (reset then
increment) leaves it nonzero. -/
theorem c3_reset_on_connect :
    ∀ (n : Nat) (o : IterOutcome),
      nextFailures n o = 0 ↔ (o = .subscribeFailed ∨ o = .listenEnded) := by
  intro n o
  cases o <;> simp [nextFailures]

/-! ### Claim C6: signature determinism -/

/-- C6: `_generate_signature` depends only on the wallet prefix (12 chars),
coin, type, value bucket and 5-minute time bucket — for any hash function
standing for md5, two events agreeing on those five inputs get an identical
signature, whatever their other fields or exact timestamps. -/
theorem c6_signature_deterministic :
    ∀ (h : String → String) (e1 e2 : DEvent) (t1 t2 : Int),
      e1.wallet.take 12 = e2.wallet.take 12 → e1.coin = e2.coin → e1.etype = e2.etype →
      valueRange e1.usdValue = valueRange e2.usdValue →
      Int.fdiv t1 300 = Int.fdiv t2 300 →
      generateSignature h e1 t1 = generateSignature h e2 t2 := by
  intro h e1 e2 t1 t2 hw hc ht hv hb
  unfold generateSignature signatureData
  rw [hw, hc, ht, hv, hb]

/-- Witness for C6 at concrete inputs: two fills differing in USD value inside
one bucket, evaluated 289 seconds apart inside one 5-minute bucket. -/
theorem c6_witness :
    evSigA.wallet.take 12 = evSigB.wallet.take 12 ∧
    valueRange evSigA.usdValue = valueRange evSigB.usdValue ∧
    Int.fdiv 10 300 = Int.fdiv 299 300 ∧
    generateSignature (fun s => s) evSigA 10 = generateSignature (fun s => s) evSigB 299 :=
  ⟨by decide, by decide, by decide,
    c6_signature_deterministic (fun s => s) evSigA evSigB 10 299 (by decide) (by decide)
      (by decide) (by decide) (by decide)⟩

/-! ### Claim C5: three-tier admission policy -/

/-- C5: `should_allow_event` implements exactly the three-tier policy — the
decision equals the spec's `tierPolicy` of the event's USD value, the recent
admissions for its signature in the consulted state, and the configured limit;
a rejected event is appended to its signature's suppressed list (and an
admitted one is not); ten consecutive $60,000 fills for one wallet/coin within
one second are all admitted; and the module instance runs with a 180s window
and a limit of 2. -/
theorem c5_three_tier_policy :
    (∀ (h : String → String) (d0 : Dedup) (e : DEvent) (now : Int),
      (shouldAllowEvent h d0 e now).1 =
        tierPolicy e.usdValue
          (recentCountOf (preState h d0 e now) (generateSignature h e now) now)
          d0.maxSimilarEvents) ∧
    (∀ (h : String → String) (d0 : Dedup) (e : DEvent) (now : Int),
      (shouldAllowEvent h d0 e now).2.suppressedEvents =
        (if (shouldAllowEvent h d0 e now).1 then (preState h d0 e now).suppressedEvents
         else
           aset (preState h d0 e now).suppressedEvents (generateSignature h e now)
             (((aget (preState h d0 e now).suppressedEvents
                 (generateSignature h e now)).getD []) ++ [e]))) ∧
    ((dedupRun id (eventDeduplicator 0, []) tenFills).2.all (fun r => r.allowed) = true ∧
      (dedupRun id (eventDeduplicator 0, []) tenFills).2.length = 10) ∧
    (∀ t0 : Int,
      (eventDeduplicator t0).windowSeconds = 180 ∧ (eventDeduplicator t0).maxSimilarEvents = 2) := by
  refine ⟨?_, ?_, ⟨by decide, by decide⟩, fun t0 => ⟨rfl, rfl⟩⟩
  · intro h d0 e now
    have hmax : (cleanupOldEntries d0 now).maxSimilarEvents = d0.maxSimilarEvents := by
      unfold cleanupOldEntries
      split_ifs <;> rfl
    simp only [shouldAllowEvent, preState, recentCountOf, tierPolicy]
    by_cases h1 : (50000 : Int) ≤ e.usdValue
    · simp [h1]
    · by_cases h2 : (10000 : Int) ≤ e.usdValue
      · split_ifs with hc hs hs' <;> simp_all [Nat.mul_comm] <;> omega
      · split_ifs with hc hs hs' <;> simp_all <;> omega
  · intro h d0 e now
    simp only [shouldAllowEvent, preState]
    split_ifs <;> simp_all

/-! ### Dispatcher lemmas: can_send and the flush fold -/

theorem canSend_true_iff (rl : RateLimiter) (ch wk : String) (now : Int) :
    (canSendNotification rl ch wk now).1 = true ↔
      cdOf rl.cooldowns ch < now - lastD rl (ch, wk) := by
  unfold canSendNotification cdOf lastD
  dsimp only
  split_ifs with h
  · simpa using h
  · simpa using h

theorem canSend_true_state {rl : RateLimiter} {ch wk : String} {now : Int}
    (h : (canSendNotification rl ch wk now).1 = true) :
    (canSendNotification rl ch wk now).2 =
      { rl with lastSent := aset rl.lastSent (ch, wk) now } := by
  unfold canSendNotification at *
  dsimp only at h ⊢
  split_ifs at h ⊢ with hc
  all_goals first
  | rfl
  | simp_all

theorem canSend_false_state {rl : RateLimiter} {ch wk : String} {now : Int}
    (h : (canSendNotification rl ch wk now).1 = false) :
    (canSendNotification rl ch wk now).2 = rl := by
  unfold canSendNotification at *
  dsimp only at h ⊢
  split_ifs at h ⊢ with hc
  all_goals first
  | rfl
  | simp_all

theorem flushFold_cooldowns (oracle : SendOracle) (now : Int)
    (ks : List (GateKey × List NEvent)) :
    ∀ (rl : RateLimiter) (log : List SendRec),
      ((ks.foldl (flushStep oracle now) (rl, log)).1).cooldowns = rl.cooldowns := by
  induction ks with
  | nil => intro rl log; rfl
  | cons p ks' ih =>
    intro rl log
    simpa [List.foldl_cons, flushStep, clearPendingEvents] using
      ih _ (sendBatch oracle log p.1.1 p.1.2 p.2 now)

theorem flushFold_lastSent (oracle : SendOracle) (now : Int)
    (ks : List (GateKey × List NEvent)) :
    ∀ (rl : RateLimiter) (log : List SendRec) (key : GateKey),
      aget ((ks.foldl (flushStep oracle now) (rl, log)).1).lastSent key =
        if key ∈ ks.map Prod.fst then some now else aget rl.lastSent key := by
  induction ks with
  | nil => intro rl log key; simp
  | cons p ks' ih =>
    intro rl log key
    rw [List.foldl_cons]
    rw [ih]
    by_cases hk : key ∈ ks'.map Prod.fst
    · simp [hk]
    · by_cases hp : key = p.1
      · subst hp
        simp [hk, flushStep, clearPendingEvents, aget_aset_self]
      · have : key ∉ (p :: ks').map Prod.fst := by
          simp only [List.map_cons, List.mem_cons]
          push_neg
          exact ⟨hp, hk⟩
        simp only [hk, if_neg this, if_false]
        simp [flushStep, clearPendingEvents, aget_aset_ne _ _ _ _ hp]

theorem flushFold_pending (oracle : SendOracle) (now : Int)
    (ks : List (GateKey × List NEvent)) :
    ∀ (rl : RateLimiter) (log : List SendRec) (key : GateKey),
      aget ((ks.foldl (flushStep oracle now) (rl, log)).1).pending key =
        if key ∈ ks.map Prod.fst then none else aget rl.pending key := by
  induction ks with
  | nil => intro rl log key; simp
  | cons p ks' ih =>
    intro rl log key
    rw [List.foldl_cons, ih]
    by_cases hk : key ∈ ks'.map Prod.fst
    · simp [hk]
    · by_cases hp : key = p.1
      · subst hp
        simp [hk, flushStep, clearPendingEvents, aget_adel_self]
      · have : key ∉ (p :: ks').map Prod.fst := by
          simp only [List.map_cons, List.mem_cons]
          push_neg
          exact ⟨hp, hk⟩
        simp only [hk, if_neg this, if_false]
        simp [flushStep, clearPendingEvents, aget_adel_ne _ _ _ hp]

theorem flushFold_pending_nodup (oracle : SendOracle) (now : Int)
    (ks : List (GateKey × List NEvent)) :
    ∀ (rl : RateLimiter) (log : List SendRec), nodupKeys rl.pending →
      nodupKeys ((ks.foldl (flushStep oracle now) (rl, log)).1).pending := by
  induction ks with
  | nil => intro rl log h; exact h
  | cons p ks' ih =>
    intro rl log h
    rw [List.foldl_cons]
    exact ih _ _ (nodupKeys_adel _ _ h)

theorem mem_sendBatch {oracle : SendOracle} {log : List SendRec}
    {ch wk : String} {evs : List NEvent} {now : Int} {r : SendRec}
    (h : r ∈ sendBatch oracle log ch wk evs now) :
    r ∈ log ∨ r = ⟨ch, wk, now, evs, oracle ch evs now⟩ := by
  unfold sendBatch at h
  split_ifs at h with hs
  · rcases List.mem_append.1 h with h | h
    · exact Or.inl h
    · exact Or.inr (List.mem_singleton.1 h)
  · exact Or.inl h

theorem processEvent_allow (oracle : SendOracle) (rl : RateLimiter) (log : List SendRec)
    (ch : String) (e : NEvent) (now : Int)
    (h : (canSendNotification rl ch (getWalletKey e) now).1 = true) :
    processEvent oracle rl log ch e now =
      ({ rl with
          lastSent := aset rl.lastSent (ch, getWalletKey e) now
          pending :=
            if pendD rl (ch, getWalletKey e) = [] then rl.pending
            else adel rl.pending (ch, getWalletKey e) },
        sendBatch oracle log ch (getWalletKey e) (pendD rl (ch, getWalletKey e) ++ [e]) now) := by
  unfold processEvent
  dsimp only
  rw [h, if_pos rfl, canSend_true_state h]
  have hpend :
      pendD { rl with lastSent := aset rl.lastSent (ch, getWalletKey e) now }
        (ch, getWalletKey e) = pendD rl (ch, getWalletKey e) := rfl
  rw [hpend]
  by_cases hp : pendD rl (ch, getWalletKey e) = []
  · simp [hp, clearPendingEvents]
  · simp [hp, clearPendingEvents]

theorem processEvent_deny (oracle : SendOracle) (rl : RateLimiter) (log : List SendRec)
    (ch : String) (e : NEvent) (now : Int)
    (h : (canSendNotification rl ch (getWalletKey e) now).1 = false) :
    processEvent oracle rl log ch e now = (addPendingEvent rl ch (getWalletKey e) e, log) := by
  unfold processEvent
  dsimp only
  rw [h, canSend_false_state h]
  simp

theorem flushFold_log (oracle : SendOracle) (now : Int)
    (ks : List (GateKey × List NEvent)) :
    ∀ (rl : RateLimiter) (log : List SendRec),
      (ks.foldl (flushStep oracle now) (rl, log)).2 =
        log ++ ks.filterMap (fun p =>
          if p.1.1 ∈ CHANNEL_HANDLERS then
            some ⟨p.1.1, p.1.2, now, p.2, oracle p.1.1 p.2 now⟩
          else none) := by
  induction ks with
  | nil => intro rl log; simp
  | cons p ks' ih =>
    intro rl log
    rw [List.foldl_cons, ih]
    show sendBatch oracle log p.1.1 p.1.2 p.2 now ++ _ = _
    unfold sendBatch
    by_cases hs : p.1.1 ∈ CHANNEL_HANDLERS
    · simp [hs, List.filterMap_cons]
    · simp [hs, List.filterMap_cons]

theorem processInv (oracle : SendOracle) (s : RateLimiter × List SendRec)
    (ch : String) (e : NEvent) (t T : Int) (hInv : GateInv s T) (ht : T ≤ t) :
    GateInv (processEvent oracle s.1 s.2 ch e t) t := by
  obtain ⟨hcd, hLT, hLlast, hlastT, hnd, hgap⟩ := hInv
  by_cases hcs : (canSendNotification s.1 ch (getWalletKey e) t).1 = true
  · rw [processEvent_allow oracle s.1 s.2 ch e t hcs]
    have hgapnew : cdOf CHANNEL_COOLDOWNS ch < t - lastD s.1 (ch, getWalletKey e) := by
      have hx := (canSend_true_iff s.1 ch (getWalletKey e) t).1 hcs
      rwa [hcd] at hx
    refine ⟨hcd, ?_, ?_, ?_, ?_, ?_⟩
    · intro r hr
      rcases mem_sendBatch hr with h | h
      · exact le_trans (hLT r h) ht
      · subst h; exact le_refl t
    · intro r hr
      rcases mem_sendBatch hr with h | h
      · by_cases hk : (r.channel, r.walletKey) = (ch, getWalletKey e)
        · have hl : lastD
              { s.1 with
                lastSent := aset s.1.lastSent (ch, getWalletKey e) t
                pending :=
                  if pendD s.1 (ch, getWalletKey e) = [] then s.1.pending
                  else adel s.1.pending (ch, getWalletKey e) }
              (r.channel, r.walletKey) = t := by
            rw [hk]
            simp [lastD, aget_aset_self]
          rw [hl]
          exact le_trans (hLT r h) ht
        · have hl : lastD
              { s.1 with
                lastSent := aset s.1.lastSent (ch, getWalletKey e) t
                pending :=
                  if pendD s.1 (ch, getWalletKey e) = [] then s.1.pending
                  else adel s.1.pending (ch, getWalletKey e) }
              (r.channel, r.walletKey) = lastD s.1 (r.channel, r.walletKey) := by
            simp [lastD, aget_aset_ne _ _ _ _ hk]
          rw [hl]
          exact hLlast r h
      · subst h
        simp [lastD, aget_aset_self]
    · intro k
      by_cases hk : k = (ch, getWalletKey e)
      · subst hk
        simp [lastD, aget_aset_self]
      · have hl : lastD
            { s.1 with
              lastSent := aset s.1.lastSent (ch, getWalletKey e) t
              pending :=
                if pendD s.1 (ch, getWalletKey e) = [] then s.1.pending
                else adel s.1.pending (ch, getWalletKey e) }
            k = lastD s.1 k := by
          simp [lastD, aget_aset_ne _ _ _ _ hk]
        rw [hl]
        exact le_trans (hlastT k) ht
    · show nodupKeys (if pendD s.1 (ch, getWalletKey e) = [] then s.1.pending
        else adel s.1.pending (ch, getWalletKey e))
      split_ifs
      · exact hnd
      · exact nodupKeys_adel _ _ hnd
    · show (sendBatch oracle s.2 ch (getWalletKey e) _ t).Pairwise (GapR CHANNEL_COOLDOWNS)
      unfold sendBatch
      split_ifs with hs
      · rw [List.pairwise_append]
        refine ⟨hgap, List.pairwise_singleton _ _, ?_⟩
        intro a ha b hb
        rw [List.mem_singleton] at hb
        subst hb
        intro hch hwk
        have h1 : a.time ≤ lastD s.1 (ch, getWalletKey e) := by
          have := hLlast a ha
          rwa [show (a.channel, a.walletKey) = (ch, getWalletKey e) from by
            rw [hch, hwk]] at this
        have h2 : cdOf CHANNEL_COOLDOWNS a.channel = cdOf CHANNEL_COOLDOWNS ch := by
          rw [hch]
        show cdOf CHANNEL_COOLDOWNS a.channel < t - a.time
        rw [h2]
        exact lt_of_lt_of_le hgapnew (sub_le_sub_left h1 t)
      · exact hgap
  · rw [processEvent_deny oracle s.1 s.2 ch e t
      (by revert hcs; cases (canSendNotification s.1 ch (getWalletKey e) t).1 <;> simp)]
    refine ⟨hcd, fun r hr => le_trans (hLT r hr) ht, ?_, ?_, ?_, hgap⟩
    · intro r hr
      exact hLlast r hr
    · intro k
      exact le_trans (hlastT k) ht
    · show nodupKeys (aset s.1.pending (ch, getWalletKey e) _)
      exact nodupKeys_aset _ _ _ hnd

theorem mem_flushRecs {oracle : SendOracle} {t : Int} {ks : List (GateKey × List NEvent)}
    {r : SendRec}
    (hr : r ∈ ks.filterMap (fun p =>
      if p.1.1 ∈ CHANNEL_HANDLERS then
        some ⟨p.1.1, p.1.2, t, p.2, oracle p.1.1 p.2 t⟩
      else none)) :
    ∃ p ∈ ks, p.1.1 ∈ CHANNEL_HANDLERS ∧
      r = ⟨p.1.1, p.1.2, t, p.2, oracle p.1.1 p.2 t⟩ := by
  rcases List.mem_filterMap.1 hr with ⟨p, hp, hf⟩
  by_cases hs : p.1.1 ∈ CHANNEL_HANDLERS
  · rw [if_pos hs] at hf
    exact ⟨p, hp, hs, (Option.some.inj hf).symm⟩
  · rw [if_neg hs] at hf
    cases hf

theorem flushCond_gap {rl : RateLimiter} {now : Int} {p : GateKey × List NEvent}
    (hc : flushCond rl now p = true) :
    cdOf rl.cooldowns p.1.1 < now - lastD rl p.1 ∧ p.2 ≠ [] := by
  unfold flushCond at hc
  rw [Bool.and_eq_true, decide_eq_true_iff] at hc
  refine ⟨hc.1, ?_⟩
  have := hc.2
  simpa using this

theorem flushInv (oracle : SendOracle) (s : RateLimiter × List SendRec)
    (t T : Int) (hInv : GateInv s T) (ht : T ≤ t) :
    GateInv (flushPending oracle s.1 s.2 t) t := by
  obtain ⟨hcd, hLT, hLlast, hlastT, hnd, hgap⟩ := hInv
  unfold flushPending
  have hksnd : ((s.1.pending.filter (flushCond s.1 t)).map Prod.fst).Nodup :=
    List.Nodup.sublist ((List.filter_sublist _).map Prod.fst) hnd
  have hmemks : ∀ p ∈ s.1.pending.filter (flushCond s.1 t),
      p ∈ s.1.pending ∧ flushCond s.1 t p = true := by
    intro p hp
    exact ⟨(List.mem_filter.1 hp).1, (List.mem_filter.1 hp).2⟩
  refine ⟨?_, ?_, ?_, ?_, ?_, ?_⟩
  · rw [flushFold_cooldowns]
    exact hcd
  · intro r hr
    rw [flushFold_log] at hr
    rcases List.mem_append.1 hr with h | h
    · exact le_trans (hLT r h) ht
    · rcases mem_flushRecs h with ⟨p, _, _, hre⟩
      subst hre
      exact le_refl t
  · intro r hr
    rw [flushFold_log] at hr
    have hlast := flushFold_lastSent oracle t (s.1.pending.filter (flushCond s.1 t)) s.1 s.2
    rcases List.mem_append.1 hr with h | h
    · show r.time ≤ lastD _ (r.channel, r.walletKey)
      unfold lastD
      rw [hlast]
      split_ifs with hk
      · show r.time ≤ t
        exact le_trans (hLT r h) ht
      · exact hLlast r h
    · rcases mem_flushRecs h with ⟨p, hp, _, hre⟩
      subst hre
      show t ≤ lastD _ (p.1.1, p.1.2)
      unfold lastD
      rw [hlast]
      have hk : (p.1.1, p.1.2) ∈ (s.1.pending.filter (flushCond s.1 t)).map Prod.fst := by
        refine List.mem_map.2 ⟨p, hp, ?_⟩
        show (p.1.1, p.1.2) = p.1
        rfl
      rw [if_pos hk]
      exact le_refl t
  · intro k
    unfold lastD
    rw [flushFold_lastSent]
    split_ifs with hk
    · exact le_refl t
    · exact le_trans (hlastT k) ht
  · exact flushFold_pending_nodup oracle t _ s.1 s.2 hnd
  · rw [flushFold_log, List.pairwise_append]
    refine ⟨hgap, ?_, ?_⟩
    · rw [List.pairwise_filterMap]
      have hpw : (s.1.pending.filter (flushCond s.1 t)).Pairwise
          (fun p q => p.1 ≠ q.1) := List.pairwise_map.1 hksnd
      refine hpw.imp_of_mem ?_
      intro p q hp hq hne
      intro c hc d hd
      intro hch hwk
      exfalso
      apply hne
      by_cases hsp : p.1.1 ∈ CHANNEL_HANDLERS
      · by_cases hsq : q.1.1 ∈ CHANNEL_HANDLERS
        · rw [if_pos hsp, Option.mem_def] at hc
          rw [if_pos hsq, Option.mem_def] at hd
          have hc2 := Option.some.inj hc
          have hd2 := Option.some.inj hd
          subst hc2
          subst hd2
          have h1 : p.1.1 = q.1.1 := hch
          have h2 : p.1.2 = q.1.2 := hwk
          exact Prod.ext h1 h2
        · rw [if_neg hsq] at hd
          simp at hd
      · rw [if_neg hsp] at hc
        simp at hc
    · intro a ha b hb
      rcases mem_flushRecs hb with ⟨p, hp, _, hre⟩
      subst hre
      intro hch hwk
      obtain ⟨hpmem, hpcond⟩ := hmemks p hp
      have hgapc := (flushCond_gap hpcond).1
      rw [hcd] at hgapc
      have h1 : a.time ≤ lastD s.1 p.1 := by
        have := hLlast a ha
        rwa [show (a.channel, a.walletKey) = p.1 from by
          rw [hch, hwk]] at this
      show cdOf CHANNEL_COOLDOWNS a.channel < t - a.time
      rw [show a.channel = p.1.1 from hch]
      exact lt_of_lt_of_le hgapc (sub_le_sub_left h1 t)

theorem gateStepInv (oracle : SendOracle) (s : RateLimiter × List SendRec)
    (op : GateOp) (t T : Int) (hInv : GateInv s T) (ht : T ≤ t) :
    GateInv (gateStep oracle s (op, t)) t := by
  cases op with
  | process ch e => exact processInv oracle s ch e t T hInv ht
  | flush => exact flushInv oracle s t T hInv ht

theorem gateRunInv (oracle : SendOracle) :
    ∀ (ops : List (GateOp × Int)) (s : RateLimiter × List SendRec) (T : Int),
      GateInv s T → timesOk ops T = true →
      ∃ T', T ≤ T' ∧ GateInv (gateRun oracle s ops) T' := by
  intro ops
  induction ops with
  | nil =>
    intro s T hInv _
    exact ⟨T, le_refl T, hInv⟩
  | cons p rest ih =>
    intro s T hInv hok
    rw [timesOk, Bool.and_eq_true, decide_eq_true_iff] at hok
    obtain ⟨hT, hrest⟩ := hok
    obtain ⟨T', hle, hInv'⟩ :=
      ih (gateStep oracle s (p.1, p.2)) p.2 (gateStepInv oracle s p.1 p.2 T hInv hT) hrest
    exact ⟨T', le_trans hT hle, by simpa [gateRun] using hInv'⟩

theorem gateStep_lastD_mono (oracle : SendOracle) (s : RateLimiter × List SendRec)
    (op : GateOp) (t T : Int) (key : GateKey) (hInv : GateInv s T) (ht : T ≤ t) :
    lastD s.1 key ≤ lastD (gateStep oracle s (op, t)).1 key := by
  obtain ⟨hcd, hLT, hLlast, hlastT, hnd, hgap⟩ := hInv
  have hkT : lastD s.1 key ≤ t := le_trans (hlastT key) ht
  cases op with
  | process ch e =>
    show lastD s.1 key ≤ lastD (processEvent oracle s.1 s.2 ch e t).1 key
    by_cases hcs : (canSendNotification s.1 ch (getWalletKey e) t).1 = true
    · rw [processEvent_allow oracle s.1 s.2 ch e t hcs]
      by_cases hk : key = (ch, getWalletKey e)
      · subst hk
        simpa [lastD, aget_aset_self] using hkT
      · simp [lastD, aget_aset_ne _ _ _ _ hk]
    · rw [processEvent_deny oracle s.1 s.2 ch e t
        (by revert hcs; cases (canSendNotification s.1 ch (getWalletKey e) t).1 <;> simp)]
      exact le_refl _
  | flush =>
    show lastD s.1 key ≤ lastD (flushPending oracle s.1 s.2 t).1 key
    unfold flushPending lastD
    rw [flushFold_lastSent]
    split_ifs with hk
    · simpa [lastD] using hkT
    · exact le_refl _

theorem gateRun_lastD_mono (oracle : SendOracle) :
    ∀ (ops : List (GateOp × Int)) (s : RateLimiter × List SendRec) (T : Int)
      (key : GateKey), GateInv s T → timesOk ops T = true →
      lastD s.1 key ≤ lastD (gateRun oracle s ops).1 key := by
  intro ops
  induction ops with
  | nil => intro s T key _ _; exact le_refl _
  | cons p rest ih =>
    intro s T key hInv hok
    rw [timesOk, Bool.and_eq_true, decide_eq_true_iff] at hok
    obtain ⟨hT, hrest⟩ := hok
    refine le_trans (gateStep_lastD_mono oracle s p.1 p.2 T key hInv hT) ?_
    have := ih (gateStep oracle s (p.1, p.2)) p.2 key
      (gateStepInv oracle s p.1 p.2 T hInv hT) hrest
    simpa [gateRun] using this

theorem flushFold_state_obs (o1 o2 : SendOracle) (now : Int)
    (ks : List (GateKey × List NEvent)) :
    ∀ (rl : RateLimiter) (log1 log2 : List SendRec),
      (ks.foldl (flushStep o1 now) (rl, log1)).1 =
        (ks.foldl (flushStep o2 now) (rl, log2)).1 := by
  induction ks with
  | nil => intro rl log1 log2; rfl
  | cons p ks' ih =>
    intro rl log1 log2
    rw [List.foldl_cons, List.foldl_cons]
    exact ih _ _ _

theorem gateStep_obs (o1 o2 : SendOracle) (s1 s2 : RateLimiter × List SendRec)
    (opt : GateOp × Int) (h1 : s1.1 = s2.1) (h2 : s1.2.map dropOk = s2.2.map dropOk) :
    (gateStep o1 s1 opt).1 = (gateStep o2 s2 opt).1 ∧
      (gateStep o1 s1 opt).2.map dropOk = (gateStep o2 s2 opt).2.map dropOk := by
  obtain ⟨op, t⟩ := opt
  cases op with
  | process ch e =>
    rw [show gateStep o1 s1 (GateOp.process ch e, t) = processEvent o1 s1.1 s1.2 ch e t from rfl,
      show gateStep o2 s2 (GateOp.process ch e, t) = processEvent o2 s2.1 s2.2 ch e t from rfl,
      ← h1]
    by_cases hcs : (canSendNotification s1.1 ch (getWalletKey e) t).1 = true
    · rw [processEvent_allow o1 s1.1 s1.2 ch e t hcs,
        processEvent_allow o2 s1.1 s2.2 ch e t hcs]
      refine ⟨rfl, ?_⟩
      show (sendBatch o1 s1.2 ch (getWalletKey e) _ t).map dropOk =
        (sendBatch o2 s2.2 ch (getWalletKey e) _ t).map dropOk
      unfold sendBatch
      split_ifs with hs
      · simp only [List.map_append, h2, List.map_cons, List.map_nil]
        rfl
      · exact h2
    · have hcs' : (canSendNotification s1.1 ch (getWalletKey e) t).1 = false := by
        revert hcs
        cases (canSendNotification s1.1 ch (getWalletKey e) t).1 <;> simp
      rw [processEvent_deny o1 s1.1 s1.2 ch e t hcs',
        processEvent_deny o2 s1.1 s2.2 ch e t hcs']
      exact ⟨rfl, h2⟩
  | flush =>
    rw [show gateStep o1 s1 (GateOp.flush, t) = flushPending o1 s1.1 s1.2 t from rfl,
      show gateStep o2 s2 (GateOp.flush, t) = flushPending o2 s2.1 s2.2 t from rfl,
      ← h1]
    unfold flushPending
    refine ⟨flushFold_state_obs o1 o2 t _ s1.1 s1.2 s2.2, ?_⟩
    rw [flushFold_log, flushFold_log]
    simp only [List.map_append, h2, List.map_filterMap]
    congr 1
    apply List.filterMap_congr
    intro p _
    by_cases hs : p.1.1 ∈ CHANNEL_HANDLERS
    · simp [hs, dropOk]
    · simp [hs]

theorem gateRun_obs_aux (o1 o2 : SendOracle) :
    ∀ (ops : List (GateOp × Int)) (s1 s2 : RateLimiter × List SendRec),
      s1.1 = s2.1 → s1.2.map dropOk = s2.2.map dropOk →
      (gateRun o1 s1 ops).1 = (gateRun o2 s2 ops).1 ∧
        (gateRun o1 s1 ops).2.map dropOk = (gateRun o2 s2 ops).2.map dropOk := by
  intro ops
  induction ops with
  | nil => intro s1 s2 h1 h2; exact ⟨h1, h2⟩
  | cons p rest ih =>
    intro s1 s2 h1 h2
    have hstep := gateStep_obs o1 o2 s1 s2 p h1 h2
    have := ih (gateStep o1 s1 p) (gateStep o2 s2 p) hstep.1 hstep.2
    simpa [gateRun] using this

theorem gateRun_obs (o1 o2 : SendOracle) (ops : List (GateOp × Int))
    (s : RateLimiter × List SendRec) :
    (gateRun o1 s ops).1 = (gateRun o2 s ops).1 ∧
      (gateRun o1 s ops).2.map dropOk = (gateRun o2 s ops).2.map dropOk :=
  gateRun_obs_aux o1 o2 ops s s rfl rfl

theorem adel_of_not_mem {κ β : Type} [DecidableEq κ] {m : List (κ × β)} {k : κ}
    (h : k ∉ m.map Prod.fst) : adel m k = m := by
  unfold adel
  apply List.filter_eq_self.2
  intro p hp
  have : p.1 ∈ m.map Prod.fst := List.mem_map.2 ⟨p, hp, rfl⟩
  simp only [ne_eq, decide_eq_true_eq]
  intro hc
  exact h (hc ▸ this)

theorem mem_aset_cases {κ β : Type} [DecidableEq κ] {m : List (κ × β)} {k : κ} {v : β}
    {p' : κ × β} (h : p' ∈ aset m k v) : p'.1 = k ∨ p' ∈ m := by
  induction m with
  | nil =>
    simp only [aset, List.mem_singleton] at h
    subst h
    exact Or.inl rfl
  | cons p rest ih =>
    by_cases hp : p.1 = k
    · rw [aset, if_pos hp] at h
      rcases List.mem_cons.1 h with h | h
      · subst h; exact Or.inl rfl
      · exact Or.inr (List.mem_cons_of_mem _ h)
    · rw [aset, if_neg hp] at h
      rcases List.mem_cons.1 h with h | h
      · subst h; exact Or.inr (List.mem_cons_self _ _)
      · rcases ih h with h | h
        · exact Or.inl h
        · exact Or.inr (List.mem_cons_of_mem _ h)

theorem pendCount_cons (p : GateKey × List NEvent) (rest : List (GateKey × List NEvent))
    (e : NEvent) : pendCount (p :: rest) e = p.2.count e + pendCount rest e := by
  simp [pendCount]

theorem pendCount_aset (m : List (GateKey × List NEvent)) (k : GateKey)
    (l : List NEvent) (e : NEvent) (hnd : nodupKeys m) :
    pendCount (aset m k ((aget m k).getD [] ++ l)) e = pendCount m e + l.count e := by
  induction m with
  | nil => simp [aset, aget, pendCount]
  | cons p rest ih =>
    by_cases hp : p.1 = k
    · rw [show aget (p :: rest) k = some p.2 from by simp [aget, hp],
        show aset (p :: rest) k ((some p.2).getD [] ++ l) = (k, p.2 ++ l) :: rest from by
          simp [aset, hp]]
      rw [pendCount_cons, pendCount_cons]
      simp only [List.count_append]
      omega
    · rw [show aget (p :: rest) k = aget rest k from by simp [aget, hp],
        show aset (p :: rest) k ((aget rest k).getD [] ++ l) =
          p :: aset rest k ((aget rest k).getD [] ++ l) from by simp [aset, hp]]
      rw [pendCount_cons, pendCount_cons, ih (nodupKeys_cons hnd).2]
      omega

theorem pendCount_adel (m : List (GateKey × List NEvent)) (k : GateKey) (e : NEvent)
    (hnd : nodupKeys m) :
    pendCount m e = pendCount (adel m k) e + ((aget m k).getD []).count e := by
  induction m with
  | nil => simp [adel, aget, pendCount]
  | cons p rest ih =>
    by_cases hp : p.1 = k
    · rw [adel_cons_eq p rest k hp,
        show aget (p :: rest) k = some p.2 from by simp [aget, hp]]
      have hkmem : k ∉ rest.map Prod.fst := hp ▸ (nodupKeys_cons hnd).1
      rw [adel_of_not_mem hkmem, pendCount_cons]
      simp only [Option.getD_some]
      omega
    · rw [adel_cons_ne p rest k hp,
        show aget (p :: rest) k = aget rest k from by simp [aget, hp],
        pendCount_cons, pendCount_cons]
      have := ih (nodupKeys_cons hnd).2
      omega

theorem logCount_append (log1 log2 : List SendRec) (e : NEvent) :
    logCount (log1 ++ log2) e = logCount log1 e + logCount log2 e := by
  simp [logCount]

theorem logCount_sendBatch (oracle : SendOracle) (log : List SendRec)
    (ch wk : String) (evs : List NEvent) (t : Int) (e : NEvent)
    (h : ch ∈ CHANNEL_HANDLERS) :
    logCount (sendBatch oracle log ch wk evs t) e = logCount log e + evs.count e := by
  simp [sendBatch, h, logCount]

theorem processEvent_count (oracle : SendOracle) (rl : RateLimiter) (log : List SendRec)
    (ch : String) (e0 : NEvent) (t : Int) (e : NEvent)
    (hnd : nodupKeys rl.pending) (hch : ch ∈ CHANNEL_HANDLERS) :
    logCount (processEvent oracle rl log ch e0 t).2 e +
      pendCount (processEvent oracle rl log ch e0 t).1.pending e =
    logCount log e + pendCount rl.pending e + [e0].count e := by
  by_cases hcs : (canSendNotification rl ch (getWalletKey e0) t).1 = true
  · rw [processEvent_allow oracle rl log ch e0 t hcs]
    rw [logCount_sendBatch oracle log ch (getWalletKey e0) _ t e hch]
    by_cases hp : pendD rl (ch, getWalletKey e0) = []
    · rw [if_pos hp, hp]
      simp only [List.count_append, List.nil_append]
      omega
    · rw [if_neg hp]
      have hd := pendCount_adel rl.pending (ch, getWalletKey e0) e hnd
      show logCount log e + (pendD rl (ch, getWalletKey e0) ++ [e0]).count e +
        pendCount (adel rl.pending (ch, getWalletKey e0)) e = _
      rw [List.count_append]
      unfold pendD at *
      omega
  · rw [processEvent_deny oracle rl log ch e0 t
      (by revert hcs; cases (canSendNotification rl ch (getWalletKey e0) t).1 <;> simp)]
    show logCount log e + pendCount (aset rl.pending (ch, getWalletKey e0) _) e = _
    rw [pendCount_aset rl.pending (ch, getWalletKey e0) [e0] e hnd]
    omega

theorem flushFold_count (oracle : SendOracle) (t : Int) (e : NEvent) :
    ∀ (ks : List (GateKey × List NEvent)) (rl : RateLimiter) (log : List SendRec),
      nodupKeys rl.pending → (ks.map Prod.fst).Nodup →
      (∀ p ∈ ks, aget rl.pending p.1 = some p.2) →
      (∀ p ∈ ks, p.1.1 ∈ CHANNEL_HANDLERS) →
      logCount (ks.foldl (flushStep oracle t) (rl, log)).2 e +
        pendCount (ks.foldl (flushStep oracle t) (rl, log)).1.pending e =
      logCount log e + pendCount rl.pending e := by
  intro ks
  induction ks with
  | nil => intro rl log _ _ _ _; rfl
  | cons p rest ih =>
    intro rl log hnd hksnd hget hsup
    rw [List.foldl_cons]
    have hks2 : nodupKeys ((p.1, p.2) :: rest) := by simpa [nodupKeys] using hksnd
    have hkeys := nodupKeys_cons hks2
    have hrl' : nodupKeys (adel rl.pending p.1) := nodupKeys_adel _ _ hnd
    have hget' : ∀ q ∈ rest, aget (adel rl.pending p.1) q.1 = some q.2 := by
      intro q hq
      have hqk : q.1 ≠ p.1 := by
        intro hc
        apply hkeys.1
        exact hc ▸ List.mem_map.2 ⟨q, hq, rfl⟩
      rw [aget_adel_ne _ _ _ hqk]
      exact hget q (List.mem_cons_of_mem _ hq)
    have hstep := ih { rl with
        pending := adel rl.pending p.1
        lastSent := aset rl.lastSent p.1 t }
      (sendBatch oracle log p.1.1 p.1.2 p.2 t) hrl' hkeys.2 hget'
      (fun q hq => hsup q (List.mem_cons_of_mem _ hq))
    have hXp : pendCount ({ rl with
        pending := adel rl.pending p.1
        lastSent := aset rl.lastSent p.1 t } : RateLimiter).pending e =
      pendCount (adel rl.pending p.1) e := rfl
    rw [hXp, logCount_sendBatch oracle log p.1.1 p.1.2 p.2 t e
      (hsup p (List.mem_cons_self _ _))] at hstep
    rw [show flushStep oracle t (rl, log) p =
      ({ rl with
          pending := adel rl.pending p.1
          lastSent := aset rl.lastSent p.1 t },
        sendBatch oracle log p.1.1 p.1.2 p.2 t) from rfl]
    rw [hstep]
    have hd := pendCount_adel rl.pending p.1 e hnd
    rw [hget p (List.mem_cons_self _ _)] at hd
    simp only [Option.getD_some] at hd
    omega

theorem flushPending_count (oracle : SendOracle) (rl : RateLimiter) (log : List SendRec)
    (t : Int) (e : NEvent) (hnd : nodupKeys rl.pending)
    (hsup : ∀ p ∈ rl.pending, p.1.1 ∈ CHANNEL_HANDLERS) :
    logCount (flushPending oracle rl log t).2 e +
      pendCount (flushPending oracle rl log t).1.pending e =
    logCount log e + pendCount rl.pending e := by
  unfold flushPending
  apply flushFold_count oracle t e _ rl log hnd
  · exact List.Nodup.sublist ((List.filter_sublist _).map Prod.fst) hnd
  · intro p hp
    exact mem_aget (List.mem_of_mem_filter hp) hnd
  · intro p hp
    exact hsup p (List.mem_of_mem_filter hp)

theorem processEvent_consOk (oracle : SendOracle) (rl : RateLimiter) (log : List SendRec)
    (ch : String) (e0 : NEvent) (t : Int)
    (hnd : nodupKeys rl.pending) (hsup : ∀ p ∈ rl.pending, p.1.1 ∈ CHANNEL_HANDLERS)
    (hch : ch ∈ CHANNEL_HANDLERS) :
    nodupKeys (processEvent oracle rl log ch e0 t).1.pending ∧
      ∀ p ∈ (processEvent oracle rl log ch e0 t).1.pending, p.1.1 ∈ CHANNEL_HANDLERS := by
  by_cases hcs : (canSendNotification rl ch (getWalletKey e0) t).1 = true
  · rw [processEvent_allow oracle rl log ch e0 t hcs]
    by_cases hp : pendD rl (ch, getWalletKey e0) = []
    · rw [if_pos hp]
      exact ⟨hnd, hsup⟩
    · rw [if_neg hp]
      refine ⟨nodupKeys_adel _ _ hnd, ?_⟩
      intro p hp'
      exact hsup p (List.mem_of_mem_filter hp')
  · rw [processEvent_deny oracle rl log ch e0 t
      (by revert hcs; cases (canSendNotification rl ch (getWalletKey e0) t).1 <;> simp)]
    refine ⟨nodupKeys_aset _ _ _ hnd, ?_⟩
    intro p hp'
    rcases mem_aset_cases hp' with h | h
    · rw [h]
      exact hch
    · exact hsup p h

theorem flushFold_pending_mem (oracle : SendOracle) (t : Int) :
    ∀ (ks : List (GateKey × List NEvent)) (rl : RateLimiter) (log : List SendRec)
      (p : GateKey × List NEvent),
      p ∈ (ks.foldl (flushStep oracle t) (rl, log)).1.pending → p ∈ rl.pending := by
  intro ks
  induction ks with
  | nil => intro rl log p hp; exact hp
  | cons q rest ih =>
    intro rl log p hp
    rw [List.foldl_cons] at hp
    have := ih _ _ p hp
    exact List.mem_of_mem_filter this

theorem gateRun_count (oracle : SendOracle) :
    ∀ (ops : List (GateOp × Int)) (s : RateLimiter × List SendRec) (e : NEvent),
      nodupKeys s.1.pending → (∀ p ∈ s.1.pending, p.1.1 ∈ CHANNEL_HANDLERS) →
      opsSupported ops = true →
      logCount (gateRun oracle s ops).2 e + pendCount (gateRun oracle s ops).1.pending e =
        logCount s.2 e + pendCount s.1.pending e + opsCount ops e := by
  intro ops
  induction ops with
  | nil => intro s e _ _ _; simp [gateRun, opsCount]
  | cons p rest ih =>
    intro s e hnd hsup hops
    rw [opsSupported, List.all_cons, Bool.and_eq_true] at hops
    obtain ⟨op, t⟩ := p
    cases op with
    | process ch e0 =>
      have hcount : opsCount ((GateOp.process ch e0, t) :: rest) e =
          [e0].count e + opsCount rest e := by
        unfold opsCount
        rw [List.countP_cons]
        by_cases he : e0 = e <;> simp [he, List.count_cons] <;> omega
      have hch : ch ∈ CHANNEL_HANDLERS := by
        have := hops.1
        simpa using this
      have hok := processEvent_consOk oracle s.1 s.2 ch e0 t hnd hsup hch
      have hrun := ih (gateStep oracle s (GateOp.process ch e0, t)) e hok.1 hok.2 hops.2
      rw [show gateRun oracle s ((GateOp.process ch e0, t) :: rest) =
        gateRun oracle (gateStep oracle s (GateOp.process ch e0, t)) rest from rfl]
      rw [show gateStep oracle s (GateOp.process ch e0, t) =
        processEvent oracle s.1 s.2 ch e0 t from rfl]
      rw [show gateStep oracle s (GateOp.process ch e0, t) =
        processEvent oracle s.1 s.2 ch e0 t from rfl] at hrun
      rw [hrun, hcount]
      have hpc := processEvent_count oracle s.1 s.2 ch e0 t e hnd hch
      omega
    | flush =>
      have hcount : opsCount ((GateOp.flush, t) :: rest) e = opsCount rest e := by
        unfold opsCount
        rw [List.countP_cons]
        simp
      have hok1 : nodupKeys (gateStep oracle s (GateOp.flush, t)).1.pending :=
        flushFold_pending_nodup oracle t _ s.1 s.2 hnd
      have hok2 : ∀ q ∈ (gateStep oracle s (GateOp.flush, t)).1.pending,
          q.1.1 ∈ CHANNEL_HANDLERS := by
        intro q hq
        exact hsup q (flushFold_pending_mem oracle t _ s.1 s.2 q hq)
      have hrun := ih (gateStep oracle s (GateOp.flush, t)) e hok1 hok2 hops.2
      rw [show gateRun oracle s ((GateOp.flush, t) :: rest) =
        gateRun oracle (gateStep oracle s (GateOp.flush, t)) rest from rfl]
      rw [show gateStep oracle s (GateOp.flush, t) =
        flushPending oracle s.1 s.2 t from rfl]
      rw [show gateStep oracle s (GateOp.flush, t) =
        flushPending oracle s.1 s.2 t from rfl] at hrun
      rw [hrun, hcount]
      have hfc := flushPending_count oracle s.1 s.2 t e hnd hsup
      omega

theorem gateInv_init : GateInv (initRL, []) 0 := by
  refine ⟨rfl, by simp, by simp, ?_, ?_, by simp⟩
  · intro key
    simp [lastD, initRL, aget]
  · simp [nodupKeys, initRL]

/-! ### Claim C2: cooldown invariant -/

/-- C2: `can_send_notification` returns true iff the elapsed time since the
key's recorded timestamp strictly exceeds the channel's cooldown; the cooldown
table is webhook 15s, telegram 45s, discord 45s, email 60s, default 30s for
unknown channels; and along any monotone-time run of the dispatcher from its
initial state, any two logged sends for the same (channel, walletKey) are
separated by more than the channel's cooldown, flush-produced sends included. -/
theorem c2_cooldown_invariant :
    (∀ (rl : RateLimiter) (ch wk : String) (now : Int),
      (canSendNotification rl ch wk now).1 = true ↔
        cdOf rl.cooldowns ch < now - lastD rl (ch, wk)) ∧
    (cdOf CHANNEL_COOLDOWNS "webhook" = 15 ∧ cdOf CHANNEL_COOLDOWNS "telegram" = 45 ∧
      cdOf CHANNEL_COOLDOWNS "discord" = 45 ∧ cdOf CHANNEL_COOLDOWNS "email" = 60 ∧
      ∀ ch : String, ch ∉ CHANNEL_HANDLERS → cdOf CHANNEL_COOLDOWNS ch = 30) ∧
    (∀ (oracle : SendOracle) (ops : List (GateOp × Int)),
      timesOk ops 0 = true →
      (gateRun oracle (initRL, []) ops).2.Pairwise (GapR CHANNEL_COOLDOWNS)) := by
  refine ⟨canSend_true_iff, ⟨rfl, rfl, rfl, rfl, ?_⟩, ?_⟩
  · intro ch h
    simp only [CHANNEL_HANDLERS, List.mem_cons, List.not_mem_nil, or_false, not_or] at h
    obtain ⟨h1, h2, h3, h4⟩ := h
    simp [cdOf, CHANNEL_COOLDOWNS, aget, Ne.symm h1, Ne.symm h2, Ne.symm h3, Ne.symm h4]
  · intro oracle ops hok
    obtain ⟨T', _, hInv⟩ := gateRunInv oracle ops (initRL, []) 0 gateInv_init hok
    exact hInv.2.2.2.2.2

/-- Witness for C2: a telegram send at t=0 followed by a flush at t=50, with
the cooldown-gap conclusion instantiated on the resulting log. -/
theorem c2_witness :
    timesOk [(GateOp.process "telegram" evWit, 0), (GateOp.flush, 50)] 0 = true ∧
    (gateRun (fun _ _ _ => true) (initRL, [])
        [(GateOp.process "telegram" evWit, 0), (GateOp.flush, 50)]).2.Pairwise
      (GapR CHANNEL_COOLDOWNS) :=
  ⟨by decide,
    c2_cooldown_invariant.2.2 (fun _ _ _ => true)
      [(GateOp.process "telegram" evWit, 0), (GateOp.flush, 50)] (by decide)⟩

/-! ### Claim C1: pending drain, atomic clear, exactly-once -/

/-- C1: a positively checked `process_event_notification` hands the channel
handler the key's whole pending queue plus the current alert in one batch and
leaves that queue empty; a flushed key likewise sends exactly its queued batch
once and its queue is empty afterwards, with the timestamp reset and the queue
clear in the same atomic step; and across any run from the initial state on
handled channels, every alert entering the dispatcher is, at any moment,
accounted exactly once between the send log and the pending queues — never
duplicated, never lost, whatever the send outcomes. -/
theorem c1_pending_drain_exactly_once :
    (∀ (oracle : SendOracle) (rl : RateLimiter) (log : List SendRec) (ch : String)
        (e : NEvent) (now : Int),
      (canSendNotification rl ch (getWalletKey e) now).1 = true →
      ch ∈ CHANNEL_HANDLERS →
      pendD (processEvent oracle rl log ch e now).1 (ch, getWalletKey e) = [] ∧
        (processEvent oracle rl log ch e now).2 =
          log ++ [⟨ch, getWalletKey e, now, pendD rl (ch, getWalletKey e) ++ [e],
            oracle ch (pendD rl (ch, getWalletKey e) ++ [e]) now⟩]) ∧
    (∀ (oracle : SendOracle) (rl : RateLimiter) (log : List SendRec) (key : GateKey)
        (evs : List NEvent) (now : Int),
      nodupKeys rl.pending → (key, evs) ∈ rl.pending →
      flushCond rl now (key, evs) = true → key.1 ∈ CHANNEL_HANDLERS →
      pendD (flushPending oracle rl log now).1 key = [] ∧
        (⟨key.1, key.2, now, evs, oracle key.1 evs now⟩ : SendRec) ∈
          (flushPending oracle rl log now).2) ∧
    (∀ (oracle : SendOracle) (ops : List (GateOp × Int)) (e : NEvent),
      opsSupported ops = true →
      logCount (gateRun oracle (initRL, []) ops).2 e +
        pendCount (gateRun oracle (initRL, []) ops).1.pending e = opsCount ops e) := by
  refine ⟨?_, ?_, ?_⟩
  · intro oracle rl log ch e now hcs hch
    rw [processEvent_allow oracle rl log ch e now hcs]
    constructor
    · show pendD _ (ch, getWalletKey e) = []
      unfold pendD
      by_cases hp : (aget rl.pending (ch, getWalletKey e)).getD [] = []
      · rw [if_pos hp]
        exact hp
      · rw [if_neg hp]
        show (aget (adel rl.pending (ch, getWalletKey e)) (ch, getWalletKey e)).getD [] = []
        rw [aget_adel_self]
        rfl
    · show sendBatch oracle log ch (getWalletKey e) _ now = _
      simp [sendBatch, hch]
  · intro oracle rl log key evs now hnd hmem hcond hch
    have hks : (key, evs) ∈ rl.pending.filter (flushCond rl now) :=
      List.mem_filter.2 ⟨hmem, hcond⟩
    have hkey : key ∈ (rl.pending.filter (flushCond rl now)).map Prod.fst :=
      List.mem_map.2 ⟨(key, evs), hks, rfl⟩
    constructor
    · unfold flushPending pendD
      rw [flushFold_pending, if_pos hkey]
      rfl
    · unfold flushPending
      rw [flushFold_log]
      refine List.mem_append.2 (Or.inr ?_)
      refine List.mem_filterMap.2 ⟨(key, evs), hks, ?_⟩
      rw [if_pos hch]
  · intro oracle ops e hops
    have := gateRun_count oracle ops (initRL, []) e (by simp [nodupKeys, initRL])
      (by simp [initRL]) hops
    simpa [logCount, pendCount, initRL] using this

/-- Witness for C1: two webhook alerts at t=0 and t=1 (the second is queued)
and a flush at t=100; conservation instantiated on that run. -/
theorem c1_witness :
    opsSupported [(GateOp.process "webhook" evWit, 0), (GateOp.process "webhook" evWit, 1),
      (GateOp.flush, 100)] = true ∧
    logCount (gateRun (fun _ _ _ => true) (initRL, [])
        [(GateOp.process "webhook" evWit, 0), (GateOp.process "webhook" evWit, 1),
          (GateOp.flush, 100)]).2 evWit +
      pendCount (gateRun (fun _ _ _ => true) (initRL, [])
        [(GateOp.process "webhook" evWit, 0), (GateOp.process "webhook" evWit, 1),
          (GateOp.flush, 100)]).1.pending evWit =
      opsCount [(GateOp.process "webhook" evWit, 0), (GateOp.process "webhook" evWit, 1),
        (GateOp.flush, 100)] evWit :=
  ⟨by decide,
    c1_pending_drain_exactly_once.2.2 (fun _ _ _ => true)
      [(GateOp.process "webhook" evWit, 0), (GateOp.process "webhook" evWit, 1),
        (GateOp.flush, 100)] evWit (by decide)⟩

/-! ### Claim C10: positive check consumes the cooldown -/

/-- C10: a positive `can_send_notification` has already overwritten the key's
last-send timestamp with the current time before any delivery is attempted;
along any monotone-time run recorded timestamps never roll back; and the
limiter's state and decision trace are identical whatever the channel handlers
return or raise — so a failed send still consumes the full cooldown. -/
theorem c10_check_overwrites_timestamp :
    (∀ (rl : RateLimiter) (ch wk : String) (now : Int),
      (canSendNotification rl ch wk now).1 = true →
      aget (canSendNotification rl ch wk now).2.lastSent (ch, wk) = some now) ∧
    (∀ (oracle : SendOracle) (s : RateLimiter × List SendRec) (T : Int)
        (ops : List (GateOp × Int)) (key : GateKey),
      GateInv s T → timesOk ops T = true →
      lastD s.1 key ≤ lastD (gateRun oracle s ops).1 key) ∧
    (∀ (o1 o2 : SendOracle) (ops : List (GateOp × Int)) (s : RateLimiter × List SendRec),
      (gateRun o1 s ops).1 = (gateRun o2 s ops).1 ∧
        (gateRun o1 s ops).2.map dropOk = (gateRun o2 s ops).2.map dropOk) := by
  refine ⟨?_, ?_, ?_⟩
  · intro rl ch wk now h
    rw [canSend_true_state h]
    exact aget_aset_self _ _ _
  · intro oracle s T ops key hInv hok
    exact gateRun_lastD_mono oracle ops s T key hInv hok
  · intro o1 o2 ops s
    exact gateRun_obs o1 o2 ops s

/-- Witness for C10: monotonicity of the telegram key's timestamp across a
concrete run from the initial state. -/
theorem c10_witness :
    timesOk [(GateOp.process "telegram" evWit, 7), (GateOp.flush, 90)] 0 = true ∧
    lastD (initRL, ([] : List SendRec)).1 ("telegram", getWalletKey evWit) ≤
      lastD (gateRun (fun _ _ _ => true) (initRL, [])
        [(GateOp.process "telegram" evWit, 7), (GateOp.flush, 90)]).1
        ("telegram", getWalletKey evWit) :=
  ⟨by decide,
    c10_check_overwrites_timestamp.2.1 (fun _ _ _ => true) (initRL, []) 0
      [(GateOp.process "telegram" evWit, 7), (GateOp.flush, 90)]
      ("telegram", getWalletKey evWit) gateInv_init (by decide)⟩

/-! ### Deduplicator lemmas: the rolling-window cap -/

theorem countP_mono_count {α : Type} [DecidableEq α] (p : α → Bool) :
    ∀ (l1 l2 : List α), (∀ x, p x = true → l1.count x ≤ l2.count x) →
      l1.countP p ≤ l2.countP p := by
  intro l1
  induction l1 with
  | nil => intro l2 _; simp
  | cons a l1' ih =>
    intro l2 h
    by_cases hpa : p a = true
    · have hmem : a ∈ l2 := by
        apply List.count_pos_iff.1
        have := h a hpa
        have hc : 0 < (a :: l1').count a := by simp
        omega
      have hperm : l2.Perm (a :: l2.erase a) := List.perm_cons_erase hmem
      rw [hperm.countP_eq p, List.countP_cons_of_pos _ _ hpa,
        List.countP_cons_of_pos _ _ hpa]
      have h' : ∀ x, p x = true → l1'.count x ≤ (l2.erase a).count x := by
        intro x hx
        by_cases hxa : x = a
        · subst hxa
          have h1 := h x hx
          rw [List.count_cons_self] at h1
          rw [List.count_erase_self]
          omega
        · rw [List.count_erase_of_ne hxa]
          have h1 := h x hx
          rw [List.count_cons_of_ne hxa] at h1
          exact h1
      exact Nat.add_le_add_right (ih _ h') 1
    · rw [List.countP_cons_of_neg _ _ hpa]
      apply ih
      intro x hx
      have h1 := h x hx
      rw [List.count_cons] at h1
      omega

theorem cleanup_fields (d : Dedup) (t : Int) :
    (cleanupOldEntries d t).windowSeconds = d.windowSeconds ∧
      (cleanupOldEntries d t).maxSimilarEvents = d.maxSimilarEvents := by
  unfold cleanupOldEntries
  split_ifs <;> exact ⟨rfl, rfl⟩

theorem shouldAllow_fields (h : String → String) (d : Dedup) (e : DEvent) (t : Int) :
    (shouldAllowEvent h d e t).2.windowSeconds = d.windowSeconds ∧
      (shouldAllowEvent h d e t).2.maxSimilarEvents = d.maxSimilarEvents := by
  unfold shouldAllowEvent
  have hc := cleanup_fields d t
  dsimp only
  split_ifs <;> simp_all

theorem aget_eq_none_of_not_mem {κ β : Type} [DecidableEq κ] {m : List (κ × β)} {k : κ}
    (h : k ∉ m.map Prod.fst) : aget m k = none := by
  induction m with
  | nil => rfl
  | cons p rest ih =>
    have hp : p.1 ≠ k := fun hc => h (List.mem_map.2 ⟨p, List.mem_cons_self _ _, hc⟩)
    rw [aget, if_neg hp]
    refine ih fun hc => h ?_
    rcases List.mem_map.1 hc with ⟨q, hq, he⟩
    exact List.mem_map.2 ⟨q, List.mem_cons_of_mem _ hq, he⟩

theorem keys_mapFilter_mem {β : Type} {m : List (String × List β)}
    {g : List β → List β} {f : String × List β → Bool} {q : String}
    (hq : q ∈ ((m.map (fun p => (p.1, g p.2))).filter f).map Prod.fst) :
    q ∈ m.map Prod.fst := by
  have hsub : List.Sublist (((m.map (fun p => (p.1, g p.2))).filter f).map Prod.fst)
      ((m.map (fun p => (p.1, g p.2))).map Prod.fst) :=
    (List.filter_sublist _).map _
  have heq : (m.map (fun p => (p.1, g p.2))).map Prod.fst = m.map Prod.fst := by
    rw [List.map_map]
    rfl
  exact heq ▸ hsub.subset hq

theorem getD_mapFilter {β : Type} (m : List (String × List β)) (g : List β → List β)
    (s : String) (hnd : nodupKeys m) (hg : g [] = []) :
    (aget ((m.map (fun p => (p.1, g p.2))).filter (fun p => !p.2.isEmpty)) s).getD [] =
      g ((aget m s).getD []) := by
  induction m with
  | nil => simpa [aget] using hg.symm
  | cons p rest ih =>
    rw [List.map_cons, List.filter_cons]
    by_cases hp : p.1 = s
    · rw [show aget (p :: rest) s = some p.2 from by simp [aget, hp]]
      cases hgb : (g p.2).isEmpty with
      | false =>
        simp only [Bool.not_false, if_pos]
        rw [show aget ((p.1, g p.2) ::
            ((rest.map (fun p => (p.1, g p.2))).filter (fun p => !p.2.isEmpty))) s =
          some (g p.2) from by simp [aget, hp]]
        rfl
      | true =>
        simp only [Bool.not_true, Bool.false_eq_true, if_false]
        have hsmem : s ∉ rest.map Prod.fst := hp ▸ (nodupKeys_cons hnd).1
        rw [aget_eq_none_of_not_mem (fun hc => hsmem (keys_mapFilter_mem hc))]
        exact (List.isEmpty_iff.1 hgb).symm
    · rw [show aget (p :: rest) s = aget rest s from by simp [aget, hp]]
      cases hgb : (g p.2).isEmpty with
      | false =>
        simp only [Bool.not_false, if_pos]
        rw [show aget ((p.1, g p.2) ::
            ((rest.map (fun p => (p.1, g p.2))).filter (fun p => !p.2.isEmpty))) s =
          aget ((rest.map (fun p => (p.1, g p.2))).filter (fun p => !p.2.isEmpty)) s from by
            simp [aget, hp]]
        exact ih (nodupKeys_cons hnd).2
      | true =>
        simp only [Bool.not_true, Bool.false_eq_true, if_false]
        exact ih (nodupKeys_cons hnd).2

theorem cleanup_storedD (d : Dedup) (t : Int) (s : String)
    (hnd : nodupKeys d.eventSignatures) :
    storedD (cleanupOldEntries d t) s =
      if t - d.lastCleanup < 120 then storedD d s
      else (storedD d s).filter (fun ts => decide (t - d.windowSeconds < ts)) := by
  unfold cleanupOldEntries storedD
  split_ifs with hc
  · rfl
  · exact getD_mapFilter d.eventSignatures _ s hnd rfl

theorem cleanup_nodup (d : Dedup) (t : Int) (hnd : nodupKeys d.eventSignatures) :
    nodupKeys (cleanupOldEntries d t).eventSignatures := by
  unfold cleanupOldEntries
  split_ifs with hc
  · exact hnd
  · refine List.Nodup.sublist (List.Sublist.map Prod.fst (List.filter_sublist _)) ?_
    rw [List.map_map]
    exact hnd

theorem preState_nodup (h : String → String) (d : Dedup) (e : DEvent) (t : Int)
    (hnd : nodupKeys d.eventSignatures) : nodupKeys (preState h d e t).eventSignatures := by
  unfold preState
  dsimp only
  split_ifs with hi
  · exact nodupKeys_aset _ _ _ (cleanup_nodup d t hnd)
  · exact cleanup_nodup d t hnd

theorem preState_fields (h : String → String) (d : Dedup) (e : DEvent) (t : Int) :
    (preState h d e t).windowSeconds = d.windowSeconds ∧
      (preState h d e t).maxSimilarEvents = d.maxSimilarEvents := by
  unfold preState
  dsimp only
  split_ifs with hi
  · exact cleanup_fields d t
  · exact cleanup_fields d t

theorem preState_storedD (h : String → String) (d : Dedup) (e : DEvent) (t : Int)
    (s : String) : storedD (preState h d e t) s = storedD (cleanupOldEntries d t) s := by
  unfold preState
  dsimp only
  split_ifs with hi
  · by_cases hs : s = generateSignature h e t
    · rw [hs]
      unfold storedD
      dsimp only
      rw [aget_aset_self, Option.isNone_iff_eq_none.1 hi]
      rfl
    · unfold storedD
      dsimp only
      rw [aget_aset_ne _ _ _ _ hs]
  · rfl

theorem shouldAllow_stored (h : String → String) (d : Dedup) (e : DEvent) (t : Int) :
    (shouldAllowEvent h d e t).2.eventSignatures =
      (if (shouldAllowEvent h d e t).1 then
        aset (preState h d e t).eventSignatures (generateSignature h e t)
          (storedD (preState h d e t) (generateSignature h e t) ++ [t])
      else (preState h d e t).eventSignatures) := by
  simp only [shouldAllowEvent, preState, storedD]
  split_ifs <;> simp_all

theorem shouldAllow_std_bound (h : String → String) (d : Dedup) (e : DEvent) (t : Int)
    (ha : (shouldAllowEvent h d e t).1 = true) (hu : e.usdValue < 10000) :
    recentCountOf (preState h d e t) (generateSignature h e t) t < d.maxSimilarEvents := by
  have hmax := (cleanup_fields d t).2
  simp only [shouldAllowEvent] at ha
  simp only [recentCountOf, preState]
  split_ifs at ha with h1 h2 h3 <;> simp_all <;> omega

theorem admitTimes_append (log : List DedupRec) (r : DedupRec) (s : String) :
    admitTimes (log ++ [r]) s =
      admitTimes log s ++ (if r.sig = s ∧ r.allowed = true then [r.time] else []) := by
  unfold admitTimes
  rw [List.filter_append, List.map_append]
  congr 1
  by_cases h1 : r.sig = s <;> by_cases h2 : r.allowed = true <;> simp [h1, h2]

theorem stdTimes_append (log : List DedupRec) (r : DedupRec) (s : String) :
    stdTimes (log ++ [r]) s =
      stdTimes log s ++
        (if r.sig = s ∧ r.allowed = true ∧ r.usd < 10000 then [r.time] else []) := by
  unfold stdTimes
  rw [List.filter_append, List.map_append]
  congr 1
  by_cases h1 : r.sig = s <;> by_cases h2 : r.allowed = true <;>
    by_cases h3 : r.usd < 10000 <;> simp [h1, h2, h3]

theorem mem_stdTimes {log : List DedupRec} {s : String} {u : Int}
    (h : u ∈ stdTimes log s) : ∃ r ∈ log, r.time = u := by
  unfold stdTimes at h
  rcases List.mem_map.1 h with ⟨r, hr, he⟩
  exact ⟨r, List.mem_of_mem_filter hr, he⟩

theorem countP_stdTimes_le (log : List DedupRec) (s : String) (p : Int → Bool) :
    (stdTimes log s).countP p ≤ (admitTimes log s).countP p := by
  unfold stdTimes admitTimes
  rw [List.countP_map, List.countP_map, List.countP_filter, List.countP_filter]
  apply List.countP_mono_left
  intro r _ hr
  simp only [Function.comp_apply, Bool.and_eq_true, decide_eq_true_eq] at hr ⊢
  exact ⟨hr.1, hr.2.1⟩

theorem capStepGeneric
    (log : List DedupRec) (T t : Int) (sig : String) (usd : Int) (b : Bool)
    (W : Int) (L : Nat) (mPre mPost : List (String × List Int))
    (hLT : ∀ r ∈ log, r.time ≤ T) (ht : T ≤ t)
    (hcntPre : ∀ (s : String) (t' : Int), t - t' < W →
      (admitTimes log s).count t' ≤ ((aget mPre s).getD []).count t')
    (hndPre : nodupKeys mPre)
    (hcap : ∀ (s : String) (a : Int),
      (stdTimes log s).countP (fun u => decide (a ≤ u ∧ u < a + W)) ≤ L)
    (hPost : mPost =
      (if b = true then aset mPre sig (((aget mPre sig).getD []) ++ [t]) else mPre))
    (hbound : b = true → usd < 10000 →
      (((aget mPre sig).getD []).filter (fun ts => decide (t - ts ≤ W))).length < L) :
    (∀ r ∈ log ++ [⟨sig, t, usd, b⟩], r.time ≤ t) ∧
    (∀ (s : String) (t' : Int), t - t' < W →
      (admitTimes (log ++ [⟨sig, t, usd, b⟩]) s).count t' ≤
        ((aget mPost s).getD []).count t') ∧
    nodupKeys mPost ∧
    (∀ (s : String) (a : Int),
      (stdTimes (log ++ [⟨sig, t, usd, b⟩]) s).countP
        (fun u => decide (a ≤ u ∧ u < a + W)) ≤ L) := by
  subst hPost
  refine ⟨?_, ?_, ?_, ?_⟩
  · intro rr hrr
    rcases List.mem_append.1 hrr with hrr | hrr
    · exact le_trans (hLT rr hrr) ht
    · rw [List.mem_singleton.1 hrr]
  · intro s t' hrec
    rw [admitTimes_append]
    rw [List.count_append]
    cases b with
    | false =>
      rw [show (if (⟨sig, t, usd, false⟩ : DedupRec).sig = s ∧
          (⟨sig, t, usd, false⟩ : DedupRec).allowed = true
          then [(⟨sig, t, usd, false⟩ : DedupRec).time] else []) = [] from by
        rw [if_neg]
        intro hc
        exact Bool.false_ne_true hc.2]
      rw [show (if ((false : Bool) = true) then
          aset mPre sig (((aget mPre sig).getD []) ++ [t]) else mPre) = mPre from by
        rw [if_neg Bool.false_ne_true]]
      simp only [List.count_nil]
      have := hcntPre s t' hrec
      omega
    | true =>
      rw [show (if ((true : Bool) = true) then
          aset mPre sig (((aget mPre sig).getD []) ++ [t]) else mPre) =
        aset mPre sig (((aget mPre sig).getD []) ++ [t]) from by rw [if_pos rfl]]
      by_cases hs : sig = s
      · rw [show (if (⟨sig, t, usd, true⟩ : DedupRec).sig = s ∧
            (⟨sig, t, usd, true⟩ : DedupRec).allowed = true
            then [(⟨sig, t, usd, true⟩ : DedupRec).time] else []) = [t] from by
          rw [if_pos ⟨hs, rfl⟩]]
        rw [← hs, aget_aset_self]
        have hbase := hcntPre sig t' hrec
        simp only [Option.getD_some, List.count_append]
        omega
      · rw [aget_aset_ne _ _ _ _ (fun hc => hs hc.symm)]
        rw [show (if (⟨sig, t, usd, true⟩ : DedupRec).sig = s ∧
            (⟨sig, t, usd, true⟩ : DedupRec).allowed = true
            then [(⟨sig, t, usd, true⟩ : DedupRec).time] else []) = [] from by
          rw [if_neg]
          intro hc
          exact hs hc.1]
        have := hcntPre s t' hrec
        simp only [List.count_nil]
        omega
  · cases b with
    | false =>
      rw [show (if ((false : Bool) = true) then
          aset mPre sig (((aget mPre sig).getD []) ++ [t]) else mPre) = mPre from by
        rw [if_neg Bool.false_ne_true]]
      exact hndPre
    | true =>
      rw [show (if ((true : Bool) = true) then
          aset mPre sig (((aget mPre sig).getD []) ++ [t]) else mPre) =
        aset mPre sig (((aget mPre sig).getD []) ++ [t]) from by rw [if_pos rfl]]
      exact nodupKeys_aset _ _ _ hndPre
  · intro s a
    rw [stdTimes_append, List.countP_append]
    by_cases hadd : (⟨sig, t, usd, b⟩ : DedupRec).sig = s ∧
        (⟨sig, t, usd, b⟩ : DedupRec).allowed = true ∧
        (⟨sig, t, usd, b⟩ : DedupRec).usd < 10000
    · obtain ⟨hsig, hball, husd⟩ := hadd
      rw [if_pos ⟨hsig, hball, husd⟩]
      have hb : b = true := hball
      have hu : usd < 10000 := husd
      by_cases hwin : a ≤ t ∧ t < a + W
      · have hrc := hbound hb hu
        have c1 : (stdTimes log s).countP
            (fun u => decide (a ≤ u ∧ u < a + W)) ≤
            (stdTimes log s).countP (fun u => decide (t - u < W)) := by
          apply List.countP_mono_left
          intro u hu2 hup
          rcases mem_stdTimes hu2 with ⟨rr, hrr, hre⟩
          have hut : u ≤ t := hre ▸ le_trans (hLT rr hrr) ht
          simp only [decide_eq_true_eq] at hup ⊢
          omega
        have c2 : (stdTimes log s).countP (fun u => decide (t - u < W)) ≤
            (admitTimes log s).countP (fun u => decide (t - u < W)) :=
          countP_stdTimes_le log s _
        have c3 : (admitTimes log s).countP (fun u => decide (t - u < W)) ≤
            ((aget mPre s).getD []).countP (fun u => decide (t - u < W)) := by
          apply countP_mono_count
          intro x hx
          simp only [decide_eq_true_eq] at hx
          exact hcntPre s x hx
        have c4 : ((aget mPre s).getD []).countP (fun u => decide (t - u < W)) ≤
            ((aget mPre s).getD []).countP (fun u => decide (t - u ≤ W)) := by
          apply List.countP_mono_left
          intro u _ hup
          simp only [decide_eq_true_eq] at hup ⊢
          omega
        have c5 : ((aget mPre s).getD []).countP (fun u => decide (t - u ≤ W)) =
            (((aget mPre s).getD []).filter (fun ts => decide (t - ts ≤ W))).length :=
          List.countP_eq_length_filter _ _
        have hsig2 : sig = s := hsig
        rw [hsig2] at hrc
        have hone : (List.countP (fun u => decide (a ≤ u ∧ u < a + W))
            [(⟨sig, t, usd, b⟩ : DedupRec).time]) ≤ 1 := by
          rw [List.countP_cons]
          simp only [List.countP_nil]
          split_ifs <;> omega
        omega
      · have hzero : (List.countP (fun u => decide (a ≤ u ∧ u < a + W))
            [(⟨sig, t, usd, b⟩ : DedupRec).time]) = 0 := by
          rw [List.countP_cons]
          simp only [List.countP_nil, Nat.zero_add]
          rw [if_neg (by simpa using hwin)]
        rw [hzero]
        have := hcap s a
        omega
    · rw [if_neg hadd]
      simp only [List.countP_nil]
      have := hcap s a
      omega

theorem dedupStepCap (h : String → String) (d : Dedup) (log : List DedupRec)
    (T t : Int) (e : DEvent) (hInv : CapInv d log T) (ht : T ≤ t) :
    CapInv (shouldAllowEvent h d e t).2
      (log ++ [⟨generateSignature h e t, t, e.usdValue, (shouldAllowEvent h d e t).1⟩]) t := by
  obtain ⟨hLT, hcnt, hnd, hcap⟩ := hInv
  have hfields := shouldAllow_fields h d e t
  have hcntPre : ∀ (s : String) (t' : Int), t - t' < d.windowSeconds →
      (admitTimes log s).count t' ≤
        ((aget (preState h d e t).eventSignatures s).getD []).count t' := by
    intro s t' hrec
    show (admitTimes log s).count t' ≤ (storedD (preState h d e t) s).count t'
    rw [preState_storedD, cleanup_storedD d t s hnd]
    split_ifs with hcl
    · exact hcnt s t' (by omega)
    · rw [List.count_filter (by
        simp only [decide_eq_true_eq]
        omega)]
      exact hcnt s t' (by omega)
  have hpost : (shouldAllowEvent h d e t).2.eventSignatures =
      (if (shouldAllowEvent h d e t).1 = true then
        aset (preState h d e t).eventSignatures (generateSignature h e t)
          (((aget (preState h d e t).eventSignatures (generateSignature h e t)).getD [])
            ++ [t])
      else (preState h d e t).eventSignatures) := shouldAllow_stored h d e t
  have hbound : (shouldAllowEvent h d e t).1 = true → e.usdValue < 10000 →
      (((aget (preState h d e t).eventSignatures (generateSignature h e t)).getD
          []).filter (fun ts => decide (t - ts ≤ d.windowSeconds))).length <
        d.maxSimilarEvents := by
    intro hb hu
    have hx := shouldAllow_std_bound h d e t hb hu
    simp only [recentCountOf] at hx
    rw [(preState_fields h d e t).1] at hx
    exact hx
  have hgen := capStepGeneric log T t (generateSignature h e t) e.usdValue
    (shouldAllowEvent h d e t).1 d.windowSeconds d.maxSimilarEvents
    (preState h d e t).eventSignatures (shouldAllowEvent h d e t).2.eventSignatures
    hLT ht hcntPre (preState_nodup h d e t hnd) hcap hpost hbound
  refine ⟨hgen.1, ?_, hgen.2.2.1, ?_⟩
  · intro s t' hrec
    rw [hfields.1] at hrec
    exact hgen.2.1 s t' hrec
  · intro s a
    rw [hfields.1, hfields.2]
    exact hgen.2.2.2 s a

/-- `should_allow_event` never changes the configured window or limit, so a
whole run keeps the initial configuration. -/
theorem dedupRun_fields (h : String → String) (ops : List (DEvent × Int)) :
    ∀ (s : Dedup × List DedupRec),
    (dedupRun h s ops).1.windowSeconds = s.1.windowSeconds ∧
      (dedupRun h s ops).1.maxSimilarEvents = s.1.maxSimilarEvents := by
  induction ops with
  | nil => intro s; exact ⟨rfl, rfl⟩
  | cons p rest ih =>
    intro s
    obtain ⟨e, t⟩ := p
    have hstep := shouldAllow_fields h s.1 e t
    have hr := ih ((shouldAllowEvent h s.1 e t).2,
      s.2 ++ [⟨generateSignature h e t, t, e.usdValue, (shouldAllowEvent h s.1 e t).1⟩])
    rw [show dedupRun h s ((e, t) :: rest) =
        dedupRun h ((shouldAllowEvent h s.1 e t).2,
          s.2 ++ [⟨generateSignature h e t, t, e.usdValue,
            (shouldAllowEvent h s.1 e t).1⟩]) rest from rfl]
    exact ⟨hr.1.trans hstep.1, hr.2.trans hstep.2⟩

/-- The cap invariant is preserved along any run whose call times are
non-decreasing. -/
theorem dedupRun_inv (h : String → String) :
    ∀ (ops : List (DEvent × Int)) (s : Dedup × List DedupRec) (T : Int),
    CapInv s.1 s.2 T → dtimesOk ops T = true →
    ∃ T', CapInv (dedupRun h s ops).1 (dedupRun h s ops).2 T' := by
  intro ops
  induction ops with
  | nil => intro s T hInv _; exact ⟨T, hInv⟩
  | cons p rest ih =>
    intro s T hInv hok
    obtain ⟨e, t⟩ := p
    simp only [dtimesOk, Bool.and_eq_true, decide_eq_true_eq] at hok
    have hstep := dedupStepCap h s.1 s.2 T t e hInv hok.1
    rw [show dedupRun h s ((e, t) :: rest) =
        dedupRun h ((shouldAllowEvent h s.1 e t).2,
          s.2 ++ [⟨generateSignature h e t, t, e.usdValue,
            (shouldAllowEvent h s.1 e t).1⟩]) rest from rfl]
    exact ih ((shouldAllowEvent h s.1 e t).2,
      s.2 ++ [⟨generateSignature h e t, t, e.usdValue,
        (shouldAllowEvent h s.1 e t).1⟩]) t hstep hok.2

/-- **C4** (counterexample to the literal claim): with the module
configuration (window 180 s, limit 2), three five-dollar fills at times 0, 0
and 180 are all admitted at the standard tier, yet all three timestamps lie in
the closed window [0, 180] whose length is exactly the configured window. The
cleanup cutoff keeps only `ts > now - window` (event_deduplicator.py:90) while
the recency test counts `now - ts <= window` (event_deduplicator.py:129), so
an admission exactly one window old is cleaned away and no longer counted,
letting a closed window of the configured length hold limit + 1 standard
admissions. -/
theorem c4_counterexample :
    (eventDeduplicator 0).windowSeconds = 180 ∧
    (eventDeduplicator 0).maxSimilarEvents = 2 ∧
    (∀ p ∈ [(evB, 0), (evB, 0), (evB, 180)], p.1.usdValue < 10000) ∧
    dtimesOk [(evB, (0:Int)), (evB, 0), (evB, 180)] 0 = true ∧
    (eventDeduplicator 0).maxSimilarEvents <
      (stdTimes (dedupRun id (eventDeduplicator 0, [])
          [(evB, 0), (evB, 0), (evB, 180)]).2
        (generateSignature id evB 0)).countP
        (fun u => decide ((0:Int) ≤ u ∧ u ≤ 0 + (180:Int))) := by
  decide

/-- **C4** (amended): over any run of `should_allow_event` with non-decreasing
call times, starting from a deduplicator with duplicate-free signature keys
and an empty log, the number of standard-tier admissions (events with
`usdValue` below the medium-value tier admitted by `should_allow_event`)
recorded for any one signature inside any half-open rolling window
`[a, a + windowSeconds)` never exceeds `maxSimilarEvents`, regardless of how
many medium- or high-value admissions share the window. -/
theorem c4_rolling_window_cap (h : String → String) (d0 : Dedup)
    (ops : List (DEvent × Int)) (T0 : Int) (s : String) (a : Int)
    (hnd : nodupKeys d0.eventSignatures) (hok : dtimesOk ops T0 = true) :
    (stdTimes (dedupRun h (d0, []) ops).2 s).countP
      (fun u => decide (a ≤ u ∧ u < a + d0.windowSeconds)) ≤
      d0.maxSimilarEvents := by
  have hInv0 : CapInv d0 [] T0 := by
    refine ⟨?_, ?_, hnd, ?_⟩
    · intro r hr; exact absurd hr (List.not_mem_nil r)
    · intro s' t' _
      simp [admitTimes]
    · intro s' a'
      simp [stdTimes]
  obtain ⟨T', hInv⟩ := dedupRun_inv h ops (d0, []) T0 hInv0 hok
  have hf := dedupRun_fields h ops (d0, [])
  have hc := hInv.2.2.2 s a
  rw [hf.1, hf.2] at hc
  exact hc

theorem aget_append_of_not_mem {β : Type} {pre : List (String × β)} {k : String}
    (h : k ∉ pre.map Prod.fst) (m : List (String × β)) :
    aget (pre ++ m) k = aget m k := by
  induction pre with
  | nil => rfl
  | cons p rest ih =>
    simp only [List.map_cons, List.mem_cons] at h
    push_neg at h
    simp only [List.cons_append, aget]
    rw [if_neg (fun hc => h.1 hc.symm)]
    exact ih h.2

theorem aset_append_of_not_mem {β : Type} {pre : List (String × β)} {k : String}
    (h : k ∉ pre.map Prod.fst) (m : List (String × β)) (v : β) :
    aset (pre ++ m) k v = pre ++ aset m k v := by
  induction pre with
  | nil => rfl
  | cons p rest ih =>
    simp only [List.map_cons, List.mem_cons] at h
    push_neg at h
    simp only [List.cons_append, aset]
    rw [if_neg (fun hc => h.1 hc.symm)]
    rw [show rest.append m = rest ++ m from rfl]
    rw [ih h.2]

/-- `get_suppressed_summary` reads only the signature's own entry. -/
theorem getSummaryOn_congr {supp1 supp2 : List (String × List DEvent)}
    {s : String} (W : Int) (h : aget supp1 s = aget supp2 s) :
    getSummaryOn supp1 W s = getSummaryOn supp2 W s := by
  unfold getSummaryOn
  rw [h]

/-- One summarization step ignores and preserves a prefix of the table whose
keys it does not touch. -/
theorem summStep_free {pre : List (String × List DEvent)} {sig : String}
    (W : Int) (acc : List Summary) (m : List (String × List DEvent))
    (h : sig ∉ pre.map Prod.fst) :
    summStep W (acc, pre ++ m) sig =
      ((summStep W (acc, m) sig).1, pre ++ (summStep W (acc, m) sig).2) := by
  unfold summStep
  dsimp only
  rw [getSummaryOn_congr W (aget_append_of_not_mem h m)]
  cases getSummaryOn m W sig with
  | none => rfl
  | some su =>
    dsimp only
    split_ifs
    · rw [aset_append_of_not_mem h m]
    · rfl

/-- The whole summarization fold ignores and preserves a prefix of the table
whose keys it never visits. -/
theorem foldSumm_free (W : Int) :
    ∀ (ks : List String) (acc : List Summary)
      (pre m : List (String × List DEvent)),
    (∀ k ∈ ks, k ∉ pre.map Prod.fst) →
    List.foldl (summStep W) (acc, pre ++ m) ks =
      ((List.foldl (summStep W) (acc, m) ks).1,
        pre ++ (List.foldl (summStep W) (acc, m) ks).2) := by
  intro ks
  induction ks with
  | nil => intro acc pre m _; rfl
  | cons k ks ih =>
    intro acc pre m h
    simp only [List.foldl_cons]
    rw [summStep_free W acc m (h k (List.mem_cons_self k ks))]
    rw [show summStep W (acc, m) k =
      ((summStep W (acc, m) k).1, (summStep W (acc, m) k).2) from rfl]
    exact ih (summStep W (acc, m) k).1 pre (summStep W (acc, m) k).2
      (fun q hq => h q (List.mem_cons_of_mem k hq))

/-- `foldSumm_free` for a one-entry prefix. -/
theorem foldSumm_free_one (W : Int) (ks : List String) (acc : List Summary)
    (q : String × List DEvent) (m : List (String × List DEvent))
    (h : ∀ k ∈ ks, k ≠ q.1) :
    List.foldl (summStep W) (acc, q :: m) ks =
      ((List.foldl (summStep W) (acc, m) ks).1,
        q :: (List.foldl (summStep W) (acc, m) ks).2) := by
  have hfree := foldSumm_free W ks acc [q] m (by
    intro k hk
    simp only [List.map_cons, List.map_nil, List.mem_singleton]
    exact h k hk)
  simpa using hfree

/-- Characterization of the summarization fold over a duplicate-free table:
the emitted summaries are exactly the qualifying entries in table order, and
the new table zeroes exactly the qualifying lists. -/
theorem foldSumm_spec (W : Int) :
    ∀ (m : List (String × List DEvent)) (acc : List Summary),
    nodupKeys m →
    List.foldl (summStep W) (acc, m) (m.map Prod.fst) =
      (acc ++ m.filterMap (specSummaryOf W),
       m.map (fun p => if 3 ≤ p.2.length then (p.1, ([] : List DEvent)) else p)) := by
  intro m
  induction m with
  | nil =>
    intro acc _
    simp
  | cons p m' ih =>
    intro acc hnd
    obtain ⟨k0, l0⟩ := p
    obtain ⟨hnotin, hnd'⟩ := nodupKeys_cons hnd
    simp only [List.map_cons, List.foldl_cons]
    by_cases h3 : 3 ≤ l0.length
    · rcases l0 with _ | ⟨e0, es⟩
      · simp at h3
      · have hstep : summStep W (acc, (k0, e0 :: es) :: m') k0 =
            (acc ++ (specSummaryOf W (k0, e0 :: es)).toList,
              (k0, ([] : List DEvent)) :: m') := by
          simp [summStep, getSummaryOn, specSummaryOf, aget, aset,
            show 2 ≤ es.length from by simpa using h3]
        rw [hstep]
        rw [foldSumm_free_one W (m'.map Prod.fst) _ (k0, ([] : List DEvent)) m'
          (fun k hk he => hnotin (he ▸ hk))]
        rw [ih _ hnd']
        simp [List.filterMap_cons, specSummaryOf,
          show 2 ≤ es.length from by simpa using h3]
    · have hstep : summStep W (acc, (k0, l0) :: m') k0 = (acc, (k0, l0) :: m') := by
        rcases l0 with _ | ⟨e0, es⟩
        · simp [summStep, getSummaryOn, aget]
        · simp [summStep, getSummaryOn, aget,
            show ¬2 ≤ es.length from by simpa using h3]
      rw [hstep]
      rw [foldSumm_free_one W (m'.map Prod.fst) _ (k0, l0) m'
        (fun k hk he => hnotin (he ▸ hk))]
      rw [ih _ hnd']
      have hq : specSummaryOf W (k0, l0) = none := by
        rcases l0 with _ | ⟨e0, es⟩
        · rfl
        · simp [specSummaryOf, show ¬2 ≤ es.length from by simpa using h3]
      simp [List.filterMap_cons, hq, h3]

/-- Witness for `c4_rolling_window_cap`: three five-dollar fills at times 0, 0
and 180 from the module configuration, inspected on the half-open window
starting at 0. -/
theorem c4_witness :
    (stdTimes (dedupRun id (eventDeduplicator 0, [])
        [(evB, 0), (evB, 0), (evB, 180)]).2
      (generateSignature id evB 0)).countP
      (fun u => decide ((0:Int) ≤ u ∧ u < 0 + (eventDeduplicator 0).windowSeconds)) ≤
      (eventDeduplicator 0).maxSimilarEvents :=
  c4_rolling_window_cap id (eventDeduplicator 0)
    [(evB, 0), (evB, 0), (evB, 180)] 0 (generateSignature id evB 0) 0
    List.Pairwise.nil (by decide)

/-- **C7**: periodic summarization (`get_all_suppressed_summaries`) runs at
most every 300 s: it does nothing while less than `summary_interval` (300 s
for the module instance) has elapsed since `last_summary_time`, and whenever
it emits anything the interval had elapsed and `last_summary_time` is set to
now.  When it runs over a duplicate-free suppressed-events table it emits
exactly one summary per signature whose suppressed list holds at least 3
events — carrying the first event's wallet, the suppressed count, the total
USD value, the distinct coins and event types, and an activity label from the
count thresholds (at least 10 High, at least 5 Moderate, else Similar) — and
clears exactly those signatures' suppressed lists.  Every summary the code
builds reports the stored list's length and the threshold label.  In Scenario
B (five $5 DOGE fills for wallet 0xDEF456... within 10 s), the first 2 are
admitted, the next 3 suppressed, and at 300 s exactly one summary with
`suppressedCount = 3` is emitted. -/
theorem c7_periodic_summaries :
    (∀ (d : Dedup) (now : Int), now - d.lastSummaryTime < d.summaryInterval →
      getAllSuppressedSummaries d now = ([], d)) ∧
    (∀ (t0 : Int), (eventDeduplicator t0).summaryInterval = 300) ∧
    (∀ (d : Dedup) (now : Int), (getAllSuppressedSummaries d now).1 ≠ [] →
      d.summaryInterval ≤ now - d.lastSummaryTime ∧
      (getAllSuppressedSummaries d now).2.lastSummaryTime = now) ∧
    (∀ (d : Dedup) (now : Int), nodupKeys d.suppressedEvents →
      d.summaryInterval ≤ now - d.lastSummaryTime →
      (getAllSuppressedSummaries d now).1 =
        d.suppressedEvents.filterMap (specSummaryOf d.windowSeconds) ∧
      (getAllSuppressedSummaries d now).2.suppressedEvents =
        d.suppressedEvents.map
          (fun p => if 3 ≤ p.2.length then (p.1, ([] : List DEvent)) else p)) ∧
    (∀ (supp : List (String × List DEvent)) (W : Int) (s : String) (su : Summary),
      getSummaryOn supp W s = some su →
      su.suppressedCount = ((aget supp s).getD []).length ∧
      su.timeWindow = W ∧
      su.activityLevel =
        (if 10 ≤ su.suppressedCount then "High Bot Activity"
         else if 5 ≤ su.suppressedCount then "Moderate Bot Activity"
         else "Similar Events")) ∧
    (dedupRun id (eventDeduplicator 0, [])
        [(evB, 0), (evB, 2), (evB, 4), (evB, 6), (evB, 8)]).2.map
      (fun r => r.allowed) = [true, true, false, false, false] ∧
    ((getAllSuppressedSummaries (dedupRun id (eventDeduplicator 0, [])
          [(evB, 0), (evB, 2), (evB, 4), (evB, 6), (evB, 8)]).1 300).1.map
        (fun su => (su.wallet, su.suppressedCount)) = [("0xDEF456abcdef", 3)]) := by
  refine ⟨?_, fun _ => rfl, ?_, ?_, ?_, by decide, by decide⟩
  · intro d now h
    unfold getAllSuppressedSummaries
    rw [if_pos h]
  · intro d now hne
    unfold getAllSuppressedSummaries at hne ⊢
    by_cases hg : now - d.lastSummaryTime < d.summaryInterval
    · rw [if_pos hg] at hne
      exact absurd rfl hne
    · rw [if_neg hg] at hne ⊢
      refine ⟨le_of_not_lt hg, ?_⟩
      dsimp only at hne ⊢
      rw [if_pos hne]
  · intro d now hnd hge
    unfold getAllSuppressedSummaries
    rw [if_neg (not_lt.mpr hge)]
    dsimp only
    rw [foldSumm_spec d.windowSeconds d.suppressedEvents [] hnd]
    exact ⟨rfl, rfl⟩
  · intro supp W s su hsu
    unfold getSummaryOn at hsu
    rcases hget : aget supp s with _ | events
    · rw [hget] at hsu
      cases hsu
    · rw [hget] at hsu
      rcases events with _ | ⟨e0, es⟩
      · cases hsu
      · dsimp only at hsu
        injection hsu with hsu
        subst hsu
        exact ⟨rfl, rfl, rfl⟩

/-- Whatever `process_single_event` forwards carries a watched wallet
(hypercore_client.py:365-368 re-validates before parsing). -/
theorem processSingle_watched {c : Client} {ed : PyVal} {w : String}
    {p : PyVal × String} (h : processSingle c ed w = some p) :
    isWatchedWallet c p.2 = true := by
  unfold processSingle at h
  cases ed with
  | vdict fs =>
    dsimp only at h
    by_cases hw : isWatchedWallet c w = true
    · rw [if_pos hw] at h
      injection h with h
      rw [← h]
      exact hw
    · rw [if_neg hw] at h
      cases h
  | vnone => cases h
  | vstr s => cases h
  | vlist xs => cases h

/-- Everything the payload dispatch forwards carries a watched wallet. -/
theorem processData_watched (c : Client) (raw : List (String × PyVal))
    (ed : Option PyVal) (w : String) :
    ∀ p ∈ processData c raw ed w, isWatchedWallet c p.2 = true := by
  intro p hp
  unfold processData at hp
  rcases ed with _ | ed
  · cases hp
  rcases ed with _ | s | xs | fs
  · cases hp
  · cases hp
  · dsimp only at hp
    rcases List.mem_filterMap.1 hp with ⟨single, _, hs⟩
    try dsimp only at hs
    rcases hew : extractWallet (some single) raw with _ | ew <;> rw [hew] at hs <;>
      dsimp only at hs
    · exact processSingle_watched hs
    · by_cases hiw : isWatchedWallet c ew = true
      · rw [if_pos hiw] at hs
        exact processSingle_watched hs
      · rw [if_neg hiw] at hs
        cases hs
  · dsimp only at hp
    rcases hps : processSingle c (.vdict fs) w with _ | q <;> rw [hps] at hp
    · cases hp
    · rw [Option.toList_some] at hp
      rw [List.mem_singleton.1 hp]
      exact processSingle_watched hps

/-- Everything the resolved-wallet stage forwards carries a watched wallet. -/
theorem handleResolved_watched (c : Client) (raw : List (String × PyVal))
    (ed : Option PyVal) (ch : String) (w : Option String) :
    ∀ p ∈ handleResolved c raw ed ch w, isWatchedWallet c p.2 = true := by
  intro p hp
  unfold handleResolved at hp
  dsimp only at hp
  rcases w with _ | wl
  · dsimp only at hp
    rcases haget : aget c.walletSubscriptions ch with _ | subs <;> rw [haget] at hp
    · cases hp
    · rcases subs with _ | ⟨x, rest⟩
      · cases hp
      · dsimp only at hp
        split_ifs at hp
        · cases hp
        · exact processData_watched c raw ed _ p hp
  · dsimp only at hp
    by_cases h1 : wl = "" ∨ wl = "unknown"
    · rw [if_pos h1] at hp
      dsimp only at hp
      rcases haget : aget c.walletSubscriptions ch with _ | subs <;> rw [haget] at hp
      · cases hp
      · rcases subs with _ | ⟨x, rest⟩
        · cases hp
        · dsimp only at hp
          by_cases h2 : x = "" ∨ x = "unknown"
          · rw [if_pos h2] at hp
            cases hp
          · rw [if_neg h2] at hp
            exact processData_watched c raw ed _ p hp
    · rw [if_neg h1] at hp
      by_cases h2 : isWatchedWallet c wl = true
      · rw [if_pos h2] at hp
        dsimp only at hp
        by_cases h3 : getOriginalWalletCase c wl = "" ∨ getOriginalWalletCase c wl = "unknown"
        · rw [if_pos h3] at hp
          cases hp
        · rw [if_neg h3] at hp
          exact processData_watched c raw ed _ p hp
      · rw [if_neg h2] at hp
        cases hp

/-- Everything `_handle_wallet_event` forwards carries a watched wallet. -/
theorem handleWalletEvent_watched (c : Client) (raw : List (String × PyVal))
    (ch : String) :
    ∀ p ∈ handleWalletEvent c raw ch, isWatchedWallet c p.2 = true := by
  intro p hp
  unfold handleWalletEvent at hp
  dsimp only at hp
  rcases htop : topWalletField raw with _ | tv <;> rw [htop] at hp
  · exact handleResolved_watched c raw _ ch _ p hp
  · rcases tv with _ | s | xs | fs
    · cases hp
    · exact handleResolved_watched c raw _ ch _ p hp
    · cases hp
    · cases hp

/-- The wallet-extraction chain for a dict payload is the first-some-wins
cascade: raw event fields, then the payload dict itself, then its nested
`data`, then `fills[0]`. -/
theorem extractWallet_dict (raw fs : List (String × PyVal)) :
    extractWallet (some (.vdict fs)) raw =
      ((checkDictForWallet (.vdict raw)).or
        ((checkDictForWallet (.vdict fs)).or
          ((nestedWallet fs).or (fillsWallet fs)))) := by
  unfold extractWallet nestedWallet fillsWallet
  cases checkDictForWallet (.vdict raw) with
  | some w => rfl
  | none =>
    dsimp only
    cases checkDictForWallet (.vdict fs) with
    | some w => rfl
    | none =>
      dsimp only
      rcases aget fs "data" with _ | nd
      · dsimp only [Option.none_or]
      · dsimp only
        by_cases ht : nd.truthy = true
        · rw [if_pos ht]
          cases checkDictForWallet nd <;> rfl
        · rw [if_neg ht]
          dsimp only [Option.none_or]

/-- The wallet-extraction chain for a non-empty list payload: raw event
fields, then the first item. -/
theorem extractWallet_list (raw : List (String × PyVal)) (x : PyVal)
    (xs : List PyVal) :
    extractWallet (some (.vlist (x :: xs))) raw =
      (checkDictForWallet (.vdict raw)).or (checkDictForWallet x) := by
  unfold extractWallet
  cases checkDictForWallet (.vdict raw) with
  | some w => rfl
  | none => dsimp only [Option.none_or]

/-- Witness for `c7_periodic_summaries`: with 100 s elapsed out of the 300 s
interval, summarization does nothing. -/
theorem c7_witness :
    getAllSuppressedSummaries (eventDeduplicator 0) 100 =
      ([], eventDeduplicator 0) :=
  c7_periodic_summaries.1 (eventDeduplicator 0) 100 (by decide)

/-- `String.toLower` through the character list, for concrete evaluation. -/
theorem toLower_data (s : String) : s.toLower = ⟨s.data.map Char.toLower⟩ :=
  String.map_eq Char.toLower s

/-- When no wallet can be resolved from the message, `_handle_wallet_event`
processes the payload under the first element of the channel's subscription
set. -/
theorem handleWalletEvent_fallback (c : Client) (raw : List (String × PyVal))
    (ch x : String) (rest : List String)
    (htop : topWalletField raw = none)
    (hew : extractWallet (aget raw "data") raw = none)
    (hsub : aget c.walletSubscriptions ch = some (x :: rest))
    (hx : ¬(x = "" ∨ x = "unknown")) :
    handleWalletEvent c raw ch = processData c raw (aget raw "data") x := by
  unfold handleWalletEvent
  dsimp only
  rw [htop, hew]
  unfold handleResolved
  dsimp only
  rw [hsub]
  dsimp only
  rw [if_neg hx]

/-- The first-subscribed fallback wallet of the concrete client is watched. -/
theorem watched_AAA1 : isWatchedWallet cxClient "0xAAA1xyz" = true := by
  unfold isWatchedWallet
  rw [if_neg (by decide)]
  rw [show List.map String.toLower cxClient.watchedWallets =
      ["0xaaa1xyz", "0xbbb2xyz"] from by
    show List.map String.toLower ["0xAAA1xyz", "0xBBB2xyz"] = _
    rw [List.map_cons, List.map_cons, List.map_nil, toLower_data, toLower_data]
    decide]
  rw [toLower_data]
  decide

/-- **C9** (counterexample to the literal claim): with subscriptions added in
the order `0xAAA1xyz` then `0xBBB2xyz` for `userFills` and a message carrying
no wallet field anywhere, the event is forwarded under the fallback wallet
`0xAAA1xyz` — the FIRST element of the subscription set under the
insertion-order concretization (`list(subs)[0]`, hypercore_client.py:319,
commented "first subscribed wallet") — not the last-subscribed wallet
`0xBBB2xyz` the spec names. -/
theorem c9_counterexample :
    (handleWalletEvent cxClient cxRaw "userFills").map (fun p => p.2) =
      ["0xAAA1xyz"] ∧
    cxClient.walletSubscriptions =
      [("userFills", subsAdd (subsAdd [] "0xAAA1xyz") "0xBBB2xyz")] ∧
    (subsAdd (subsAdd [] "0xAAA1xyz") "0xBBB2xyz").getLast? = some "0xBBB2xyz" ∧
    ("0xAAA1xyz" : String) ≠ "0xBBB2xyz" ∧
    (topWalletField cxRaw).isNone = true ∧
    (extractWallet (aget cxRaw "data") cxRaw).isNone = true := by
  refine ⟨?_, by decide, by decide, by decide, by decide, by decide⟩
  rw [handleWalletEvent_fallback cxClient cxRaw "userFills" "0xAAA1xyz"
    ["0xBBB2xyz"] rfl rfl rfl (by decide)]
  show ((processSingle cxClient (.vdict [("px", .vstr "10")])
      "0xAAA1xyz").toList).map (fun p => p.2) = ["0xAAA1xyz"]
  unfold processSingle
  dsimp only
  rw [watched_AAA1]
  rfl

/-- **C9** (amended): wallet routing of an inbound data-channel message.
Every forwarded `(payload, wallet)` pair carries a wallet from the watched
set, compared case-insensitively — events whose resolved wallet is not
watched are dropped, and a resolved non-watched top-level wallet drops the
whole message.  Extraction follows the ordered field fallback: the raw
event's own fields first, then (for a dict payload) the payload dict, its
nested `data`, then `fills[0]` — or the first item of a list payload — as a
first-some-wins cascade; when resolution fails entirely, the fallback
wallet is the first element of the channel's subscription set under the
insertion-order concretization (`list(subs)[0]`), not the last-subscribed
one. -/
theorem c9_wallet_routing :
    (∀ (c : Client) (raw : List (String × PyVal)) (ch : String),
      ∀ p ∈ handleWalletEvent c raw ch, isWatchedWallet c p.2 = true) ∧
    (∀ (raw fs : List (String × PyVal)),
      extractWallet (some (.vdict fs)) raw =
        ((checkDictForWallet (.vdict raw)).or
          ((checkDictForWallet (.vdict fs)).or
            ((nestedWallet fs).or (fillsWallet fs))))) ∧
    (∀ (raw : List (String × PyVal)) (x : PyVal) (xs : List PyVal),
      extractWallet (some (.vlist (x :: xs))) raw =
        (checkDictForWallet (.vdict raw)).or (checkDictForWallet x)) ∧
    (∀ (c : Client) (raw : List (String × PyVal)) (ch s : String),
      topWalletField raw = some (.vstr s) →
      ¬(s = "" ∨ s = "unknown") →
      isWatchedWallet c s = false →
      handleWalletEvent c raw ch = []) ∧
    (∀ (c : Client) (raw : List (String × PyVal)) (ch : String)
        (x : String) (rest : List String),
      topWalletField raw = none →
      extractWallet (aget raw "data") raw = none →
      aget c.walletSubscriptions ch = some (x :: rest) →
      ¬(x = "" ∨ x = "unknown") →
      handleWalletEvent c raw ch = processData c raw (aget raw "data") x) := by
  refine ⟨handleWalletEvent_watched, extractWallet_dict, extractWallet_list, ?_, ?_⟩
  · intro c raw ch s htop hs hw
    unfold handleWalletEvent
    dsimp only
    rw [htop]
    unfold handleResolved
    dsimp only
    rw [if_neg hs, if_neg (by rw [hw]; exact Bool.false_ne_true)]
  · intro c raw ch x rest htop hew hsub hx
    exact handleWalletEvent_fallback c raw ch x rest htop hew hsub hx

/-- Witness for `c9_wallet_routing`: the pair the concrete fallback message
forwards indeed carries a watched wallet. -/
theorem c9_witness :
    isWatchedWallet cxClient "0xAAA1xyz" = true :=
  c9_wallet_routing.1 cxClient cxRaw "userFills"
    (.vdict [("px", .vstr "10")], "0xAAA1xyz")
    (by
      rw [handleWalletEvent_fallback cxClient cxRaw "userFills" "0xAAA1xyz"
        ["0xBBB2xyz"] rfl rfl rfl (by decide)]
      show (PyVal.vdict [("px", .vstr "10")], "0xAAA1xyz") ∈
        ((processSingle cxClient (.vdict [("px", .vstr "10")])
          "0xAAA1xyz").toList)
      unfold processSingle
      dsimp only
      rw [watched_AAA1]
      exact List.mem_singleton.mpr rfl)

end HW
